import Mathlib

/-!
Verification development for the PlushForums static-site converter
(`converter/convert_forum.py`) and the private-message converter
(`dm-converter/convert_dms.py`).

Python strings are modelled as `List Char`; Python dicts as association
lists in insertion order (keys are unique in every store built by the
loaders); Python `None`-able integers as `Option Int`.
-/

set_option maxRecDepth 8000

namespace TPF

/-- Python truthiness of a value that is either `None` or an `int`:
`None` and `0` are falsy, every other integer is truthy. -/
def pyTruthyOptInt : Option Int → Bool
  | none => false
  | some n => n != 0

/-- A Python dictionary key as used by the converter: either an `int` or a
`str`.  In Python, an `int` key never compares equal to a `str` key, which
the derived equality reproduces (distinct constructors are unequal). -/
inductive PyKey where
  | int : Int → PyKey
  | str : List Char → PyKey
deriving DecidableEq

/-- Membership test `k in d` for an association-list dictionary. -/
def dictMem (k : PyKey) (d : List (PyKey × α)) : Bool :=
  d.any (fun p => p.1 = k)

/-- Lookup `d[k]` for an association-list dictionary (first binding wins;
stores built by the loaders have unique keys). -/
def dictFind (k : PyKey) (d : List (PyKey × α)) : Option α :=
  (d.find? (fun p => p.1 = k)).map Prod.snd

/-- The decimal digit character for `d` (`0 ≤ d ≤ 9`). -/
def digitChar48 (d : Nat) : Char := Char.ofNat (48 + d)

/-- Little-endian decimal digits.  Dividing by 10 shrinks the argument, so
`fuel = n` steps always suffice; the fuel only makes the recursion
structural (and hence kernel-evaluable). -/
def natDigitsRevAux : Nat → Nat → List Nat
  | _, 0 => []
  | 0, _ + 1 => []
  | fuel + 1, n + 1 => ((n + 1) % 10) :: natDigitsRevAux fuel ((n + 1) / 10)

/-- Little-endian decimal digits of `n`. -/
def natDigitsRev (n : Nat) : List Nat := natDigitsRevAux n n

theorem natDigitsRevAux_eq_digits :
    ∀ (fuel n : Nat), n ≤ fuel → natDigitsRevAux fuel n = Nat.digits 10 n := by
  intro fuel
  induction fuel with
  | zero =>
    intro n hn
    have h0 : n = 0 := by omega
    subst h0
    rw [natDigitsRevAux, Nat.digits_zero]
  | succ f ih =>
    intro n hn
    cases n with
    | zero => rw [natDigitsRevAux, Nat.digits_zero]
    | succ m =>
      rw [natDigitsRevAux, Nat.digits_def' (by norm_num : (1:ℕ) < 10) (Nat.succ_pos m),
        ih ((m + 1) / 10) (by omega)]

theorem natDigitsRev_eq_digits (n : Nat) : natDigitsRev n = Nat.digits 10 n :=
  natDigitsRevAux_eq_digits n n le_rfl

/-- Decimal representation of a natural number, exactly as Python `str`
produces it (no sign, no leading zeros, `"0"` for zero). -/
def natToStr (n : Nat) : List Char :=
  if n = 0 then ['0'] else (natDigitsRev n).reverse.map digitChar48

/-- Decimal representation of a Python `int` (minus sign for negatives). -/
def intToStr (n : Int) : List Char :=
  if n < 0 then '-' :: natToStr n.natAbs else natToStr n.toNat

/-- Numeric value of a decimal digit character. -/
def digitVal (c : Char) : Nat := c.toNat - 48

/-- Parse a nonempty all-digit string as a natural number. -/
def parseNat (s : List Char) : Option Nat :=
  if s ≠ [] ∧ s.all Char.isDigit then
    some (s.foldl (fun acc c => 10 * acc + digitVal c) 0)
  else none

/-- Model of Python `int(s)` on the strings `str` produces: an optional
minus sign followed by decimal digits (anything else fails). -/
def pyInt (s : List Char) : Option Int :=
  if s.head? = some '-' then (parseNat s.tail).map (fun (m : Nat) => -(m : Int))
  else (parseNat s).map (fun (m : Nat) => (m : Int))

theorem digitChar48_isDigit {d : Nat} (h : d < 10) : (digitChar48 d).isDigit = true := by
  interval_cases d <;> decide

theorem digitVal_digitChar48 {d : Nat} (h : d < 10) : digitVal (digitChar48 d) = d := by
  interval_cases d <;> decide

theorem foldl_digitChar48 (ds : List Nat) (h : ∀ d ∈ ds, d < 10) (acc : Nat) :
    List.foldl (fun a c => 10 * a + digitVal c) acc (ds.map digitChar48)
      = List.foldl (fun a d => 10 * a + d) acc ds := by
  induction ds generalizing acc with
  | nil => rfl
  | cons d ds ih =>
    simp only [List.map_cons, List.foldl_cons]
    rw [digitVal_digitChar48 (h d (by simp))]
    exact ih (fun x hx => h x (by simp [hx])) _

theorem foldl_rev_ofDigits (ds : List Nat) (acc : Nat) :
    List.foldl (fun a d => 10 * a + d) acc ds.reverse
      = acc * 10 ^ ds.length + Nat.ofDigits 10 ds := by
  induction ds generalizing acc with
  | nil => simp [Nat.ofDigits]
  | cons d ds ih =>
    simp only [List.reverse_cons, List.foldl_append, List.foldl_cons, List.foldl_nil, ih,
      List.length_cons, Nat.ofDigits_cons]
    rw [pow_succ]
    ring

theorem natToStr_ne_nil (n : Nat) : natToStr n ≠ [] := by
  unfold natToStr
  split
  · simp
  · rename_i h
    simp only [ne_eq, List.map_eq_nil_iff, List.reverse_eq_nil_iff, natDigitsRev_eq_digits]
    exact (Nat.digits_ne_nil_iff_ne_zero).mpr h

theorem natToStr_all_digits (n : Nat) : (natToStr n).all Char.isDigit = true := by
  unfold natToStr
  split
  · decide
  · rw [List.all_eq_true]
    intro c hc
    rw [natDigitsRev_eq_digits, List.mem_map] at hc
    obtain ⟨d, hd, rfl⟩ := hc
    exact digitChar48_isDigit (Nat.digits_lt_base (by norm_num) (List.mem_reverse.mp hd))

theorem parseNat_natToStr (n : Nat) : parseNat (natToStr n) = some n := by
  unfold parseNat
  rw [if_pos ⟨natToStr_ne_nil n, natToStr_all_digits n⟩]
  congr 1
  unfold natToStr
  split
  · rename_i h
    subst h
    decide
  · rw [natDigitsRev_eq_digits,
      foldl_digitChar48 _ (fun d hd => Nat.digits_lt_base (by norm_num) (List.mem_reverse.mp hd)),
      foldl_rev_ofDigits, Nat.ofDigits_digits]
    ring

theorem dash_not_mem_natToStr (n : Nat) : '-' ∉ natToStr n := by
  intro hmem
  have hall := (List.all_eq_true.mp (natToStr_all_digits n)) '-' hmem
  exact absurd hall (by decide)

theorem pyInt_natToStr (n : Nat) : pyInt (natToStr n) = some (n : Int) := by
  have hhead : ¬ (natToStr n).head? = some '-' := by
    intro hhead
    apply dash_not_mem_natToStr n
    cases hh : natToStr n with
    | nil => rw [hh] at hhead; simp at hhead
    | cons c cs =>
      rw [hh] at hhead
      simp only [List.head?_cons, Option.some_inj] at hhead
      subst hhead
      exact List.mem_cons_self _ _
  unfold pyInt
  rw [if_neg hhead, parseNat_natToStr]
  rfl

theorem pyInt_intToStr (n : Int) : pyInt (intToStr n) = some n := by
  unfold intToStr
  split
  · rename_i hneg
    show pyInt ('-' :: natToStr n.natAbs) = some n
    unfold pyInt
    have hcond : ('-' :: natToStr n.natAbs).head? = some '-' := rfl
    rw [if_pos hcond]
    show (parseNat (natToStr n.natAbs)).map _ = some n
    rw [parseNat_natToStr]
    have h2 : ((n.natAbs : Int)) = -n := by omega
    show some (-(n.natAbs : Int)) = some n
    rw [h2, neg_neg]
  · rename_i hpos
    rw [pyInt_natToStr]
    have h2 : ((n.toNat : Int)) = n := by omega
    rw [h2]

/-! ### The Windows-1252 remap (`fix_windows_1252_encoding`)

Python `text.replace(c, r)` for a one-character pattern `c` replaces every
occurrence of `c` independently; each replacement string in the remap table
has length at most one. -/

/-- Replace every occurrence of the character `c` in `t` by the string `r`. -/
def replaceChar (c : Char) (r : List Char) (t : List Char) : List Char :=
  t.flatMap (fun x => if x = c then r else [x])

namespace forum

/-- The Windows-1252 remap table of `convert_forum.py`. -/
def windows_1252_mapping : List (Char × List Char) :=
  [('\u0080', ['€']), ('\u0081', []), ('\u0082', ['‚']), ('\u0083', ['ƒ']), ('\u0084', ['„']),
   ('\u0085', ['…']), ('\u0086', ['†']), ('\u0087', ['‡']), ('\u0088', ['ˆ']), ('\u0089', ['‰']),
   ('\u008A', ['Š']), ('\u008B', ['‹']), ('\u008C', ['Œ']), ('\u008D', []), ('\u008E', ['Ž']),
   ('\u008F', []), ('\u0090', []), ('\u0091', ['‘']), ('\u0092', ['’']), ('\u0093', ['“']),
   ('\u0094', ['”']), ('\u0095', ['•']), ('\u0096', ['–']), ('\u0097', ['—']), ('\u0098', ['˜']),
   ('\u0099', ['™']), ('\u009A', ['š']), ('\u009B', ['›']), ('\u009C', ['œ']), ('\u009D', []),
   ('\u009E', ['ž']), ('\u009F', ['Ÿ'])]

/-- Forum converter's `fix_windows_1252_encoding`: empty (falsy) text is
returned unchanged, otherwise each table entry is applied with
`str.replace`, in table order. -/
def fix_windows_1252_encoding (text : List Char) : List Char :=
  if text = [] then text
  else windows_1252_mapping.foldl (fun acc p => replaceChar p.1 p.2 acc) text

end forum

namespace dm

/-- The Windows-1252 remap table of `convert_dms.py` (identical entries). -/
def windows_1252_mapping : List (Char × List Char) :=
  [('\u0080', ['€']), ('\u0081', []), ('\u0082', ['‚']), ('\u0083', ['ƒ']), ('\u0084', ['„']),
   ('\u0085', ['…']), ('\u0086', ['†']), ('\u0087', ['‡']), ('\u0088', ['ˆ']), ('\u0089', ['‰']),
   ('\u008A', ['Š']), ('\u008B', ['‹']), ('\u008C', ['Œ']), ('\u008D', []), ('\u008E', ['Ž']),
   ('\u008F', []), ('\u0090', []), ('\u0091', ['‘']), ('\u0092', ['’']), ('\u0093', ['“']),
   ('\u0094', ['”']), ('\u0095', ['•']), ('\u0096', ['–']), ('\u0097', ['—']), ('\u0098', ['˜']),
   ('\u0099', ['™']), ('\u009A', ['š']), ('\u009B', ['›']), ('\u009C', ['œ']), ('\u009D', []),
   ('\u009E', ['ž']), ('\u009F', ['Ÿ'])]

/-- DM converter's `fix_windows_1252_encoding` (same body as the forum copy). -/
def fix_windows_1252_encoding (text : List Char) : List Char :=
  if text = [] then text
  else windows_1252_mapping.foldl (fun acc p => replaceChar p.1 p.2 acc) text

end dm

theorem replaceChar_not_mem {c : Char} {r t : List Char} (h : c ∉ t) :
    replaceChar c r t = t := by
  unfold replaceChar
  induction t with
  | nil => rfl
  | cons x xs ih =>
    simp only [List.flatMap_cons]
    rw [if_neg (by rintro rfl; exact h (List.mem_cons_self _ _)),
      ih (fun hx => h (List.mem_cons_of_mem _ hx))]
    rfl

theorem not_mem_replaceChar {x c : Char} {r t : List Char} (ht : x ∉ t ∨ x = c) (hr : x ∉ r) :
    x ∉ replaceChar c r t := by
  unfold replaceChar
  intro hmem
  rw [List.mem_flatMap] at hmem
  obtain ⟨y, hy, hx⟩ := hmem
  by_cases hyc : y = c
  · rw [if_pos hyc] at hx
    exact hr hx
  · rw [if_neg hyc] at hx
    rw [List.mem_singleton] at hx
    subst hx
    rcases ht with ht | ht
    · exact ht hy
    · exact hyc ht

/-- After folding a replacement table over `t`, a character absent from `t`
and from every replacement string stays absent. -/
theorem foldl_replace_not_mem {x : Char} :
    ∀ (M : List (Char × List Char)) (t : List Char), x ∉ t → (∀ p ∈ M, x ∉ p.2) →
      x ∉ M.foldl (fun acc p => replaceChar p.1 p.2 acc) t := by
  intro M
  induction M with
  | nil => intro t ht _; exact ht
  | cons p M ih =>
    intro t ht hM
    simp only [List.foldl_cons]
    exact ih _ (not_mem_replaceChar (Or.inl ht) (hM p (List.mem_cons_self _ _)))
      (fun q hq => hM q (List.mem_cons_of_mem _ hq))

/-- After folding a replacement table whose replacement strings avoid every
table key, no table key occurs in the result. -/
theorem foldl_replace_removes :
    ∀ (M : List (Char × List Char)) (t : List Char),
      (∀ p ∈ M, ∀ y ∈ p.2, y ∉ M.map Prod.fst) →
      ∀ c ∈ M.map Prod.fst, c ∉ M.foldl (fun acc p => replaceChar p.1 p.2 acc) t := by
  intro M
  induction M with
  | nil => intro t _ c hc; simp at hc
  | cons p M ih =>
    intro t hM c hc
    simp only [List.foldl_cons]
    rw [List.map_cons, List.mem_cons] at hc
    rcases hc with hceq | hc
    · have hcfst : c ∈ (p :: M).map Prod.fst := by
        rw [List.map_cons, hceq]
        exact List.mem_cons_self _ _
      have hnotrep : ∀ q ∈ p :: M, c ∉ q.2 := fun q hq hmem => hM q hq c hmem hcfst
      exact foldl_replace_not_mem M _
        (not_mem_replaceChar (Or.inr hceq) (hnotrep p (List.mem_cons_self _ _)))
        (fun q hq => hnotrep q (List.mem_cons_of_mem _ hq))
    · apply ih
      · intro q hq y hy hmap
        exact hM q (List.mem_cons_of_mem _ hq) y hy
          (by rw [List.map_cons]; exact List.mem_cons_of_mem _ hmap)
      · exact hc

/-- Folding a replacement table over a text containing none of the keys is
the identity. -/
theorem foldl_replace_id :
    ∀ (M : List (Char × List Char)) (t : List Char), (∀ p ∈ M, p.1 ∉ t) →
      M.foldl (fun acc p => replaceChar p.1 p.2 acc) t = t := by
  intro M
  induction M with
  | nil => intro t _; rfl
  | cons p M ih =>
    intro t ht
    simp only [List.foldl_cons]
    rw [replaceChar_not_mem (ht p (List.mem_cons_self _ _))]
    exact ih t (fun q hq => ht q (List.mem_cons_of_mem _ hq))

theorem forum_fix_idem (t : List Char) :
    forum.fix_windows_1252_encoding (forum.fix_windows_1252_encoding t)
      = forum.fix_windows_1252_encoding t := by
  by_cases h : t = []
  · subst h; rfl
  · have h1 : forum.fix_windows_1252_encoding t
        = forum.windows_1252_mapping.foldl (fun acc p => replaceChar p.1 p.2 acc) t := by
      unfold forum.fix_windows_1252_encoding
      rw [if_neg h]
    rw [h1]
    unfold forum.fix_windows_1252_encoding
    split
    · rfl
    · apply foldl_replace_id
      intro p hp
      exact foldl_replace_removes forum.windows_1252_mapping t (by decide) p.1
        (List.mem_map_of_mem Prod.fst hp)

theorem dm_fix_idem (t : List Char) :
    dm.fix_windows_1252_encoding (dm.fix_windows_1252_encoding t)
      = dm.fix_windows_1252_encoding t := by
  by_cases h : t = []
  · subst h; rfl
  · have h1 : dm.fix_windows_1252_encoding t
        = dm.windows_1252_mapping.foldl (fun acc p => replaceChar p.1 p.2 acc) t := by
      unfold dm.fix_windows_1252_encoding
      rw [if_neg h]
    rw [h1]
    unfold dm.fix_windows_1252_encoding
    split
    · rfl
    · apply foldl_replace_id
      intro p hp
      exact foldl_replace_removes dm.windows_1252_mapping t (by decide) p.1
        (List.mem_map_of_mem Prod.fst hp)

/-! ### Slug generation (`generate_slug`) -/

/-- ASCII lowercase table modelling Python `str.lower` (titles in this
corpus are ASCII; other characters are left unchanged). -/
def lowerMap : List (Char × Char) :=
  [('A','a'), ('B','b'), ('C','c'), ('D','d'), ('E','e'), ('F','f'), ('G','g'),
   ('H','h'), ('I','i'), ('J','j'), ('K','k'), ('L','l'), ('M','m'), ('N','n'),
   ('O','o'), ('P','p'), ('Q','q'), ('R','r'), ('S','s'), ('T','t'), ('U','u'),
   ('V','v'), ('W','w'), ('X','x'), ('Y','y'), ('Z','z')]

/-- Lowercasing of one character. -/
def pyToLower (c : Char) : Char :=
  ((lowerMap.find? (fun p => p.1 = c)).map Prod.snd).getD c

/-- A regex `\w` word character (alphanumeric or underscore). -/
def isWordChar (c : Char) : Bool := c.isAlphanum || c = '_'

/-- A regex `\s` whitespace character. -/
def isSpaceChar (c : Char) : Bool := c.isWhitespace

/-- A character of the class `[-\s]`. -/
def isSpaceHyphen (c : Char) : Bool := isSpaceChar c || c = '-'

/-- A character kept by `re.sub(r'[^\w\s-]', '', ·)`. -/
def keepSlugChar (c : Char) : Bool := isWordChar c || isSpaceChar c || c = '-'

/-- Effect of `re.sub(r'[-\s]+', '-', ·)`: every maximal run of
whitespace/hyphen characters becomes a single hyphen.  Every step consumes
at least one character, so `fuel = l.length` steps always suffice; the
fuel only makes the recursion structural. -/
def collapseRunsAux : Nat → List Char → List Char
  | _, [] => []
  | 0, l => l
  | fuel + 1, c :: rest =>
    if isSpaceHyphen c then '-' :: collapseRunsAux fuel (rest.dropWhile isSpaceHyphen)
    else c :: collapseRunsAux fuel rest

/-- One full pass of `re.sub(r'[-\s]+', '-', ·)`. -/
def collapseRuns (l : List Char) : List Char := collapseRunsAux l.length l

/-- `generate_slug` of `convert_forum.py`: lowercase the title, strip the
characters outside `[\w\s-]`, collapse `[-\s]+` runs to single hyphens,
truncate to 50 characters. -/
def generate_slug (title : List Char) : List Char :=
  (collapseRuns ((title.map pyToLower).filter keepSlugChar)).take 50

theorem pyToLower_idem (c : Char) : pyToLower (pyToLower c) = pyToLower c := by
  cases hf : lowerMap.find? (fun p => p.1 = c) with
  | none =>
    have h1 : pyToLower c = c := by unfold pyToLower; rw [hf]; rfl
    rw [h1, h1]
  | some p =>
    have hp : p ∈ lowerMap := List.mem_of_find?_eq_some hf
    have h1 : pyToLower c = p.2 := by unfold pyToLower; rw [hf]; rfl
    rw [h1]
    exact (by decide : ∀ q ∈ lowerMap, pyToLower q.2 = q.2) p hp

theorem dropWhile_head_not {p : Char → Bool} :
    ∀ (l : List Char) (c : Char), (l.dropWhile p).head? = some c → p c = false := by
  intro l
  induction l with
  | nil => intro c h; simp at h
  | cons x xs ih =>
    intro c h
    rw [List.dropWhile_cons] at h
    by_cases hx : p x = true
    · rw [if_pos hx] at h
      exact ih c h
    · rw [if_neg hx] at h
      simp only [List.head?_cons, Option.some_inj] at h
      subst h
      exact Bool.eq_false_iff.mpr hx

theorem collapseRunsAux_mem :
    ∀ (fuel : Nat) (l : List Char), l.length ≤ fuel →
      ∀ x ∈ collapseRunsAux fuel l, x = '-' ∨ (x ∈ l ∧ isSpaceHyphen x = false) := by
  intro fuel l
  induction fuel, l using collapseRunsAux.induct with
  | case1 t =>
    intro _ x hx
    simp [collapseRunsAux] at hx
  | case2 l hne =>
    intro hlen x hx
    cases l with
    | nil => exact absurd rfl (fun heq => hne heq)
    | cons a as => simp at hlen
  | case3 fuel c rest hsh ih =>
    intro hlen x hx
    rw [collapseRunsAux, if_pos hsh] at hx
    have hlen2 : (rest.dropWhile isSpaceHyphen).length ≤ fuel := by
      have h1 : (rest.dropWhile isSpaceHyphen).length ≤ rest.length :=
        (List.dropWhile_sublist isSpaceHyphen).length_le
      simp only [List.length_cons] at hlen
      omega
    rcases List.mem_cons.mp hx with rfl | hx
    · exact Or.inl rfl
    · rcases ih hlen2 x hx with h | ⟨hmem, hnot⟩
      · exact Or.inl h
      · exact Or.inr
          ⟨List.mem_cons_of_mem _ ((List.dropWhile_sublist isSpaceHyphen).mem hmem), hnot⟩
  | case4 fuel c rest hsh ih =>
    intro hlen x hx
    rw [collapseRunsAux, if_neg hsh] at hx
    have hlen2 : rest.length ≤ fuel := by
      simp only [List.length_cons] at hlen
      omega
    rcases List.mem_cons.mp hx with rfl | hx
    · exact Or.inr ⟨List.mem_cons_self _ _, Bool.eq_false_iff.mpr hsh⟩
    · rcases ih hlen2 x hx with h | ⟨hmem, hnot⟩
      · exact Or.inl h
      · exact Or.inr ⟨List.mem_cons_of_mem _ hmem, hnot⟩

theorem collapseRuns_mem (l : List Char) :
    ∀ x ∈ collapseRuns l, x = '-' ∨ (x ∈ l ∧ isSpaceHyphen x = false) :=
  collapseRunsAux_mem l.length l le_rfl

theorem collapseRunsAux_head_not_sh :
    ∀ (fuel : Nat) (l : List Char), (∀ c, l.head? = some c → isSpaceHyphen c = false) →
      ∀ y, (collapseRunsAux fuel l).head? = some y → isSpaceHyphen y = false := by
  intro fuel l hl y hy
  cases l with
  | nil =>
    cases fuel with
    | zero => simp [collapseRunsAux] at hy
    | succ n => simp [collapseRunsAux] at hy
  | cons c rest =>
    have hc : isSpaceHyphen c = false := hl c rfl
    cases fuel with
    | zero =>
      rw [collapseRunsAux] at hy
      · simp only [List.head?_cons, Option.some_inj] at hy
        subst hy
        exact hc
      · simp
    | succ n =>
      rw [collapseRunsAux, if_neg (by rw [hc]; exact Bool.false_ne_true)] at hy
      simp only [List.head?_cons, Option.some_inj] at hy
      subst hy
      exact hc

theorem collapseRunsAux_chain :
    ∀ (fuel : Nat) (l : List Char), l.length ≤ fuel →
      List.Chain' (fun a b => ¬(isSpaceHyphen a = true ∧ isSpaceHyphen b = true))
        (collapseRunsAux fuel l) := by
  intro fuel l
  induction fuel, l using collapseRunsAux.induct with
  | case1 t =>
    intro _
    simp [collapseRunsAux]
  | case2 l hne =>
    intro hlen
    cases l with
    | nil => exact absurd rfl (fun heq => hne heq)
    | cons a as => simp at hlen
  | case3 fuel c rest hsh ih =>
    intro hlen
    rw [collapseRunsAux, if_pos hsh, List.chain'_cons']
    have hlen2 : (rest.dropWhile isSpaceHyphen).length ≤ fuel := by
      have h1 : (rest.dropWhile isSpaceHyphen).length ≤ rest.length :=
        (List.dropWhile_sublist isSpaceHyphen).length_le
      simp only [List.length_cons] at hlen
      omega
    constructor
    · intro y hy hcontra
      have : isSpaceHyphen y = false :=
        collapseRunsAux_head_not_sh _ _ (fun d hd => dropWhile_head_not _ d hd) y hy
      rw [this] at hcontra
      exact Bool.false_ne_true hcontra.2
    · exact ih hlen2
  | case4 fuel c rest hsh ih =>
    intro hlen
    rw [collapseRunsAux, if_neg hsh, List.chain'_cons']
    have hlen2 : rest.length ≤ fuel := by
      simp only [List.length_cons] at hlen
      omega
    constructor
    · intro y _ hcontra
      exact hsh hcontra.1
    · exact ih hlen2

/-- No two adjacent characters of `collapseRuns l` are both in `[-\s]`. -/
theorem collapseRuns_chain (l : List Char) :
    List.Chain' (fun a b => ¬(isSpaceHyphen a = true ∧ isSpaceHyphen b = true))
      (collapseRuns l) :=
  collapseRunsAux_chain l.length l le_rfl

/-! ### The markup-engine callbacks -/

/-- A discussion record; the markup engine reads only the title field. -/
structure Discussion where
  Name : List Char
deriving DecidableEq

/-- `_convert_reply_tag` of `convert_forum.py`.  `target_id` is the second
regex group (a string); when it starts with `'d'` the remainder is kept as
a string `disc_id`, which is compared against the integer-keyed discussion
store (so the membership test is a str-vs-int dictionary lookup). -/
def _convert_reply_tag (discussions : List (PyKey × Discussion))
    (current_discussion_id : Option Int) (username target_id : List Char) : List Char :=
  if target_id.head? = some 'd' then
    if pyTruthyOptInt current_discussion_id
        ∧ target_id.drop 1 = intToStr (current_discussion_id.getD 0) then
      "<a href=\"#discussion-top\" class=\"reply-link\">Reply to ".data ++ username ++ "</a>".data
    else
      match dictFind (PyKey.str (target_id.drop 1)) discussions with
      | some discussion =>
        "<a href=\"/discussions/".data ++ target_id.drop 1 ++ "-".data
          ++ generate_slug discussion.Name
          ++ ".html\" class=\"reply-link\">Reply to ".data ++ username ++ "</a>".data
      | none =>
        "<a href=\"/discussions/".data ++ target_id.drop 1
          ++ "\" class=\"reply-link\">Reply to ".data ++ username ++ "</a>".data
  else
    "<a href=\"#comment-".data ++ target_id
      ++ "\" class=\"reply-link\">Reply to ".data ++ username ++ "</a>".data

/-- `_convert_complex_quote` of `convert_forum.py`: identical resolution
logic, wrapping the captured quote body in a blockquote element. -/
def _convert_complex_quote (discussions : List (PyKey × Discussion))
    (current_discussion_id : Option Int)
    (username target_id quoted_content : List Char) : List Char :=
  if target_id.head? = some 'd' then
    if pyTruthyOptInt current_discussion_id
        ∧ target_id.drop 1 = intToStr (current_discussion_id.getD 0) then
      "<a href=\"#discussion-top\" class=\"quote-link\">Quoting ".data ++ username
        ++ "</a><blockquote class=\"user-quote\">".data ++ quoted_content
        ++ "</blockquote>".data
    else
      match dictFind (PyKey.str (target_id.drop 1)) discussions with
      | some discussion =>
        "<a href=\"/discussions/".data ++ target_id.drop 1 ++ "-".data
          ++ generate_slug discussion.Name
          ++ ".html\" class=\"quote-link\">Quoting ".data ++ username
          ++ "</a><blockquote class=\"user-quote\">".data ++ quoted_content
          ++ "</blockquote>".data
      | none =>
        "<a href=\"/discussions/".data ++ target_id.drop 1
          ++ "\" class=\"quote-link\">Quoting ".data ++ username
          ++ "</a><blockquote class=\"user-quote\">".data ++ quoted_content
          ++ "</blockquote>".data
  else
    "<a href=\"#comment-".data ++ target_id
      ++ "\" class=\"quote-link\">Quoting ".data ++ username
      ++ "</a><blockquote class=\"user-quote\">".data ++ quoted_content
      ++ "</blockquote>".data

/-- Linear scan of the member store for the first display name equal to the
mentioned username (Python `for uid, name in members.items(): ... break`). -/
def findUserId : List (Int × List Char) → List Char → Option Int
  | [], _ => none
  | (uid, name) :: rest, username =>
    if name = username then some uid else findUserId rest username

/-- `_convert_user_mention` of `convert_forum.py`: the found id feeds a
Python truthiness test (`if user_id:`), so both "no match" (`None`) and a
matched id of `0` produce the unknown-mention span. -/
def _convert_user_mention (members : List (Int × List Char)) (username : List Char) : List Char :=
  if pyTruthyOptInt (findUserId members username) then
    "<a href=\"/members/".data ++ intToStr ((findUserId members username).getD 0)
      ++ ".html\" class=\"user-mention\">@".data ++ username ++ "</a>".data
  else
    "<span class=\"user-mention unknown\">@".data ++ username ++ "</span>".data

/-! ### List conversion -/

/-- Python `str.strip()`: remove leading and trailing whitespace. -/
def pyStrip (l : List Char) : List Char :=
  ((l.dropWhile isSpaceChar).reverse.dropWhile isSpaceChar).reverse

/-- Effect of `re.sub(r'<br>\s*', '', ·)`: every literal `<br>` and the
greedy whitespace run after it are removed, scanning left to right.  Every
step consumes at least one character, so `fuel = l.length` always
suffices; the fuel only makes the recursion structural. -/
def removeBrAux : Nat → List Char → List Char
  | _, [] => []
  | 0, l => l
  | fuel + 1, '<' :: 'b' :: 'r' :: '>' :: rest => removeBrAux fuel (rest.dropWhile isSpaceChar)
  | fuel + 1, c :: rest => c :: removeBrAux fuel rest

/-- One full pass of `re.sub(r'<br>\s*', '', ·)`. -/
def removeBr (l : List Char) : List Char := removeBrAux l.length l

/-- `re.split(r'\[\*\]', ·)`: split on every literal `[*]` tag. -/
def splitOnStar : List Char → List (List Char)
  | [] => [[]]
  | '[' :: '*' :: ']' :: rest => [] :: splitOnStar rest
  | c :: rest =>
    match splitOnStar rest with
    | [] => [[c]]
    | s :: ss => (c :: s) :: ss

/-- Per-item cleanup of the list converters: remove `<br>` runs, strip
surrounding whitespace. -/
def cleanListItem (item : List Char) : List Char := pyStrip (removeBr item)

/-- The accumulation loop of both list converters: cleaned items that are
empty (falsy) are not appended. -/
def buildCleanedItems : List (List Char) → List (List Char)
  | [] => []
  | item :: rest =>
    if cleanListItem item ≠ [] then cleanListItem item :: buildCleanedItems rest
    else buildCleanedItems rest

/-- The joined `<li>` fragments of a list body. -/
def liTags (content : List Char) : List Char :=
  ((buildCleanedItems (splitOnStar content)).map
    (fun item => "<li>".data ++ item ++ "</li>".data)).flatten

/-- The list-style tokens recognised by `_convert_ordered_list`. -/
def recognizedListTypes : List (List Char) :=
  ["1".data, "a".data, "A".data, "i".data, "I".data]

/-- `_convert_ordered_list` of `convert_forum.py`. -/
def _convert_ordered_list (list_type list_content : List Char) : List Char :=
  if list_type ∈ recognizedListTypes then
    "<ol type=\"".data ++ list_type ++ "\">".data ++ liTags list_content ++ "</ol>".data
  else
    "<ol>".data ++ liTags list_content ++ "</ol>".data

/-- `_convert_unordered_list` of `convert_forum.py`. -/
def _convert_unordered_list (list_content : List Char) : List Char :=
  "<ul>".data ++ liTags list_content ++ "</ul>".data

theorem buildCleanedItems_eq_filter (items : List (List Char)) :
    buildCleanedItems items
      = (items.map cleanListItem).filter (fun i => !i.isEmpty) := by
  induction items with
  | nil => rfl
  | cons item rest ih =>
    rw [buildCleanedItems, List.map_cons, List.filter_cons]
    by_cases h : cleanListItem item = []
    · rw [if_neg (by simp [h]), if_neg (by simp [h])]
      exact ih
    · rw [if_pos (by simpa using h), if_pos (by simpa using h), ih]

/-! ### Line-break normalisation (the first stage of `convert_plush_bbcode`) -/

/-- Python `text.replace('\r\n', '\n')`. -/
def replaceCRLF : List Char → List Char
  | [] => []
  | '\r' :: '\n' :: rest => '\n' :: replaceCRLF rest
  | c :: rest => c :: replaceCRLF rest

/-- Python `text.replace('\r', '\n')`. -/
def replaceCR (t : List Char) : List Char :=
  t.map (fun c => if c = '\r' then '\n' else c)

/-- Python `text.replace('\n', '<br>\n')`. -/
def brInsert (t : List Char) : List Char :=
  t.flatMap (fun c => if c = '\n' then "<br>\n".data else [c])

/-! ### A generic left-to-right `re.sub` driver

`tryMatch t` decides whether a match of the pattern starts exactly at the
head of `t`, returning the replacement text and the rest of the input
after the match.  `re.sub` scans left to right: on a match it emits the
replacement and resumes after the match, otherwise it emits one character
and retries at the next position.  Every match of the patterns below
consumes at least one character, so `t.length` steps always suffice; the
explicit fuel only makes the recursion structural. -/

def subScanAux (tryMatch : List Char → Option (List Char × List Char)) :
    Nat → List Char → List Char
  | 0, t => t
  | _ + 1, [] => []
  | fuel + 1, c :: rest =>
    match tryMatch (c :: rest) with
    | some (repl, rest2) => repl ++ subScanAux tryMatch fuel rest2
    | none => c :: subScanAux tryMatch fuel rest

/-- One full `re.sub` pass over `t`. -/
def reSub (tryMatch : List Char → Option (List Char × List Char)) (t : List Char) : List Char :=
  subScanAux tryMatch t.length t

/-- Scan for the first occurrence of the literal `close` (the lazy
`(.*?)close`); outside DOTALL mode (`allowNl = false`) the dot cannot
match a newline, so the scan fails upon reaching one.  Returns the content
before the close tag and the rest after it. -/
def splitAtClose (close : List Char) (allowNl : Bool) : List Char → Option (List Char × List Char)
  | [] => none
  | c :: rest =>
    if close.isPrefixOf (c :: rest) then some ([], (c :: rest).drop close.length)
    else if allowNl = false ∧ c = '\n' then none
    else (splitAtClose close allowNl rest).map (fun p => (c :: p.1, p.2))

/-- Try-match for a plain pair-tag pattern `open(.*?)close`. -/
def tryPair (openT closeT : List Char) (allowNl : Bool)
    (render : List Char → List Char) (t : List Char) : Option (List Char × List Char) :=
  if openT.isPrefixOf t then
    (splitAtClose closeT allowNl (t.drop openT.length)).map (fun p => (render p.1, p.2))
  else none

/-- The character class `[^";]`. -/
def notQuoteSemi (c : Char) : Bool := !(c == '"') && !(c == ';')

/-- The character class `[^"]`. -/
def notQuote (c : Char) : Bool := !(c == '"')

/-- The character class `[^\]]`. -/
def notRBracket (c : Char) : Bool := !(c == ']')

/-- Try-match for `\[reply="([^";]+);(d?\d+)"\]`.  The first group is the
maximal nonempty run without `"`/`;`, followed by a literal `;`; the
second is an optional `d` and a maximal nonempty digit run, followed by
the literal `"]`. -/
def tryReply (discussions : List (PyKey × Discussion)) (cur : Option Int)
    (t : List Char) : Option (List Char × List Char) :=
  if ("[reply=\"".data).isPrefixOf t then
    let r0 := t.drop 8
    let uname := r0.takeWhile notQuoteSemi
    let r1 := r0.dropWhile notQuoteSemi
    if uname ≠ [] ∧ r1.head? = some ';' then
      let r2 := r1.tail
      if r2.head? = some 'd' then
        let digits := r2.tail.takeWhile Char.isDigit
        let r4 := r2.tail.dropWhile Char.isDigit
        if digits ≠ [] ∧ ("\"]".data).isPrefixOf r4 then
          some (_convert_reply_tag discussions cur uname ('d' :: digits), r4.drop 2)
        else none
      else
        let digits := r2.takeWhile Char.isDigit
        let r4 := r2.dropWhile Char.isDigit
        if digits ≠ [] ∧ ("\"]".data).isPrefixOf r4 then
          some (_convert_reply_tag discussions cur uname digits, r4.drop 2)
        else none
    else none
  else none

/-- Try-match for `\[quote="([^";]+);([^"]+)"\](.*?)\[/quote\]` (DOTALL). -/
def tryComplexQuote (discussions : List (PyKey × Discussion)) (cur : Option Int)
    (t : List Char) : Option (List Char × List Char) :=
  if ("[quote=\"".data).isPrefixOf t then
    let r0 := t.drop 8
    let uname := r0.takeWhile notQuoteSemi
    let r1 := r0.dropWhile notQuoteSemi
    if uname ≠ [] ∧ r1.head? = some ';' then
      let r2 := r1.tail
      let target := r2.takeWhile notQuote
      let r3 := r2.dropWhile notQuote
      if target ≠ [] ∧ ("\"]".data).isPrefixOf r3 then
        match splitAtClose ("[/quote]".data) true (r3.drop 2) with
        | some (content, rest2) =>
          some (_convert_complex_quote discussions cur uname target content, rest2)
        | none => none
      else none
    else none
  else none

/-- Try-match for `\[quote="([^"]+)"\](.*?)\[/quote\]` (DOTALL), replaced
by `<blockquote class="user-quote"><cite>\1:</cite>\2</blockquote>`. -/
def tryNamedQuote (t : List Char) : Option (List Char × List Char) :=
  if ("[quote=\"".data).isPrefixOf t then
    let r0 := t.drop 8
    let uname := r0.takeWhile notQuote
    let r1 := r0.dropWhile notQuote
    if uname ≠ [] ∧ ("\"]".data).isPrefixOf r1 then
      match splitAtClose ("[/quote]".data) true (r1.drop 2) with
      | some (content, rest2) =>
        some ("<blockquote class=\"user-quote\"><cite>".data ++ uname ++ ":</cite>".data
          ++ content ++ "</blockquote>".data, rest2)
      | none => none
    else none
  else none

/-- Try-match for `@"([^"]+)"`, replaced by `_convert_user_mention`. -/
def tryMention (members : List (Int × List Char)) (t : List Char) :
    Option (List Char × List Char) :=
  if t.head? = some '@' ∧ t.tail.head? = some '"' then
    let rest := t.tail.tail
    let uname := rest.takeWhile notQuote
    let r1 := rest.dropWhile notQuote
    if uname ≠ [] ∧ r1.head? = some '"' then
      some (_convert_user_mention members uname, r1.tail)
    else none
  else none

/-- Backtracking search for `(.*?)\](.*?)\[/url\]` (both groups non-DOTALL)
after the literal `[url=`: the lazy first group extends to successive `]`
characters until the remainder holds a `[/url]`, neither group crossing a
newline. -/
def urlEqAux : List Char → Option (List Char × List Char × List Char)
  | [] => none
  | c :: rest =>
    if c = ']' then
      match splitAtClose ("[/url]".data) false rest with
      | some (g2, rest2) => some ([], g2, rest2)
      | none => (urlEqAux rest).map (fun p => (']' :: p.1, p.2.1, p.2.2))
    else if c = '\n' then none
    else (urlEqAux rest).map (fun p => (c :: p.1, p.2.1, p.2.2))

/-- Try-match for `\[url=(.*?)\](.*?)\[/url\]`, replaced by
`<a href="\1" class="external-link">\2</a>`. -/
def tryUrlEq (t : List Char) : Option (List Char × List Char) :=
  if ("[url=".data).isPrefixOf t then
    (urlEqAux (t.drop 5)).map (fun p =>
      ("<a href=\"".data ++ p.1 ++ "\" class=\"external-link\">".data ++ p.2.1 ++ "</a>".data,
        p.2.2))
  else none

/-- Try-match for `\[list=([^\]]+)\](.*?)\[/list\]` (DOTALL), replaced by
`_convert_ordered_list`. -/
def tryListEq (t : List Char) : Option (List Char × List Char) :=
  if ("[list=".data).isPrefixOf t then
    let r0 := t.drop 6
    let style := r0.takeWhile notRBracket
    let r1 := r0.dropWhile notRBracket
    if style ≠ [] ∧ r1.head? = some ']' then
      match splitAtClose ("[/list]".data) true r1.tail with
      | some (content, rest2) => some (_convert_ordered_list style content, rest2)
      | none => none
    else none
  else none

/-- `convert_plush_bbcode` of `convert_forum.py`: empty (falsy) text
yields the empty string; otherwise line breaks are normalised and the
regex cascade is applied in source order (reply tags, complex quotes,
named quotes, simple quotes, user mentions, `[b]`/`[i]`/`[u]`, URLs,
media, images, code blocks, ordered lists, unordered lists). -/
def convert_plush_bbcode (discussions : List (PyKey × Discussion))
    (members : List (Int × List Char)) (text : List Char)
    (current_discussion_id : Option Int) : List Char :=
  if text = [] then []
  else
    let t1 := brInsert (replaceCR (replaceCRLF text))
    let t2 := reSub (tryReply discussions current_discussion_id) t1
    let t3 := reSub (tryComplexQuote discussions current_discussion_id) t2
    let t4 := reSub tryNamedQuote t3
    let t5 := reSub (tryPair "[quote]".data "[/quote]".data true
      (fun c => "<blockquote class=\"simple-quote\">".data ++ c ++ "</blockquote>".data)) t4
    let t6 := reSub (tryMention members) t5
    let t7 := reSub (tryPair "[b]".data "[/b]".data false
      (fun c => "<strong>".data ++ c ++ "</strong>".data)) t6
    let t8 := reSub (tryPair "[i]".data "[/i]".data false
      (fun c => "<em>".data ++ c ++ "</em>".data)) t7
    let t9 := reSub (tryPair "[u]".data "[/u]".data false
      (fun c => "<u>".data ++ c ++ "</u>".data)) t8
    let t10 := reSub tryUrlEq t9
    let t11 := reSub (tryPair "[url]".data "[/url]".data false
      (fun g => "<a href=\"".data ++ g ++ "\" class=\"external-link\">".data
        ++ g ++ "</a>".data)) t10
    let t12 := reSub (tryPair "[media]".data "[/media]".data false
      (fun g => "<div class=\"media-embed\"><a href=\"".data ++ g
        ++ "\" target=\"_blank\">🔗 Media content</a></div>".data)) t11
    let t13 := reSub (tryPair "[img]".data "[/img]".data false
      (fun g => "<img src=\"".data ++ g
        ++ "\" alt=\"User image\" class=\"user-image\" loading=\"lazy\">".data)) t12
    let t14 := reSub (tryPair "[code]".data "[/code]".data true
      (fun g => "<pre><code>".data ++ g ++ "</code></pre>".data)) t13
    let t15 := reSub tryListEq t14
    reSub (tryPair "[list]".data "[/list]".data true _convert_unordered_list) t15

/-! ### Texts without markup pass through the cascade unchanged -/

/-- Whether the text contains the two-character mention opener. -/
def hasMention : List Char → Bool
  | [] => false
  | c :: rest => if c = '@' ∧ rest.head? = some '"' then true else hasMention rest

theorem hasMention_cons_false {c : Char} {rest : List Char}
    (h : hasMention (c :: rest) = false) : hasMention rest = false := by
  rw [hasMention] at h
  by_cases hc : c = '@' ∧ rest.head? = some '"'
  · rw [if_pos hc] at h
    exact absurd h (by simp)
  · rwa [if_neg hc] at h

theorem hasMention_cons_ne {c : Char} {rest : List Char} (hc : c ≠ '@') :
    hasMention (c :: rest) = hasMention rest := by
  rw [hasMention, if_neg]
  intro hcontra
  exact hc hcontra.1

theorem hasMention_of_suffix {v t : List Char}
    (h : ('@' :: '"' :: v) <:+ t) : hasMention t = true := by
  induction t with
  | nil =>
    obtain ⟨s, hs⟩ := h
    simp at hs
  | cons c rest ih =>
    rcases List.suffix_cons_iff.mp h with heq | hsuf
    · rw [← heq, hasMention, if_pos ⟨rfl, rfl⟩]
    · rw [hasMention]
      by_cases hc : c = '@' ∧ rest.head? = some '"'
      · rw [if_pos hc]
      · rw [if_neg hc]
        exact ih hsuf

theorem subScanAux_id (tryMatch : List Char → Option (List Char × List Char)) :
    ∀ (fuel : Nat) (t : List Char),
      (∀ c u, (c :: u) <:+ t → tryMatch (c :: u) = none) →
      subScanAux tryMatch fuel t = t := by
  intro fuel
  induction fuel with
  | zero => intro t _; rfl
  | succ n ih =>
    intro t ht
    cases t with
    | nil => rfl
    | cons c rest =>
      have h0 : tryMatch (c :: rest) = none := ht c rest (List.suffix_refl _)
      simp only [subScanAux, h0]
      exact congrArg (List.cons c)
        (ih rest (fun c2 u2 hsuf => ht c2 u2 (hsuf.trans (List.suffix_cons c rest))))

theorem reSub_id_of_head {tryMatch : List Char → Option (List Char × List Char)} {trig : Char}
    (hhead : ∀ c u, tryMatch (c :: u) ≠ none → c = trig)
    {t : List Char} (ht : trig ∉ t) : reSub tryMatch t = t := by
  apply subScanAux_id
  intro c u hsuf
  by_contra hne
  have hc : c = trig := hhead c u hne
  subst hc
  exact ht (hsuf.sublist.subset (List.mem_cons_self _ _))

theorem reSub_id_mention {tryMatch : List Char → Option (List Char × List Char)}
    (hhead : ∀ c u, tryMatch (c :: u) ≠ none → c = '@' ∧ u.head? = some '"')
    {t : List Char} (ht : hasMention t = false) : reSub tryMatch t = t := by
  apply subScanAux_id
  intro c u hsuf
  by_contra hne
  obtain ⟨hc, hu⟩ := hhead c u hne
  subst hc
  cases u with
  | nil => simp at hu
  | cons d v =>
    simp only [List.head?_cons, Option.some_inj] at hu
    subst hu
    rw [hasMention_of_suffix hsuf] at ht
    exact absurd ht (by simp)

theorem isPrefixOf_head {o c : Char} {os u : List Char}
    (h : (o :: os).isPrefixOf (c :: u) = true) : c = o := by
  have h2 : (o :: os) <+: (c :: u) := List.isPrefixOf_iff_prefix.mp h
  obtain ⟨s, hs⟩ := h2
  rw [List.cons_append] at hs
  exact (List.head_eq_of_cons_eq hs).symm

theorem tryPair_ne_none_head {o : Char} {os closeT : List Char} {allowNl : Bool}
    {render : List Char → List Char} {c : Char} {u : List Char}
    (h : tryPair (o :: os) closeT allowNl render (c :: u) ≠ none) : c = o := by
  unfold tryPair at h
  by_cases hp : (o :: os).isPrefixOf (c :: u) = true
  · exact isPrefixOf_head hp
  · rw [if_neg hp] at h
    exact absurd rfl h

theorem tryReply_ne_none_head {discussions : List (PyKey × Discussion)} {cur : Option Int}
    {c : Char} {u : List Char} (h : tryReply discussions cur (c :: u) ≠ none) : c = '[' := by
  unfold tryReply at h
  by_cases hp : ("[reply=\"".data).isPrefixOf (c :: u) = true
  · have hlit : "[reply=\"".data = '[' :: "reply=\"".data := rfl
    rw [hlit] at hp
    exact isPrefixOf_head hp
  · rw [if_neg hp] at h
    exact absurd rfl h

theorem tryComplexQuote_ne_none_head {discussions : List (PyKey × Discussion)} {cur : Option Int}
    {c : Char} {u : List Char} (h : tryComplexQuote discussions cur (c :: u) ≠ none) :
    c = '[' := by
  unfold tryComplexQuote at h
  by_cases hp : ("[quote=\"".data).isPrefixOf (c :: u) = true
  · have hlit : "[quote=\"".data = '[' :: "quote=\"".data := rfl
    rw [hlit] at hp
    exact isPrefixOf_head hp
  · rw [if_neg hp] at h
    exact absurd rfl h

theorem tryNamedQuote_ne_none_head {c : Char} {u : List Char}
    (h : tryNamedQuote (c :: u) ≠ none) : c = '[' := by
  unfold tryNamedQuote at h
  by_cases hp : ("[quote=\"".data).isPrefixOf (c :: u) = true
  · have hlit : "[quote=\"".data = '[' :: "quote=\"".data := rfl
    rw [hlit] at hp
    exact isPrefixOf_head hp
  · rw [if_neg hp] at h
    exact absurd rfl h

theorem tryUrlEq_ne_none_head {c : Char} {u : List Char}
    (h : tryUrlEq (c :: u) ≠ none) : c = '[' := by
  unfold tryUrlEq at h
  by_cases hp : ("[url=".data).isPrefixOf (c :: u) = true
  · have hlit : "[url=".data = '[' :: "url=".data := rfl
    rw [hlit] at hp
    exact isPrefixOf_head hp
  · rw [if_neg hp] at h
    exact absurd rfl h

theorem tryListEq_ne_none_head {c : Char} {u : List Char}
    (h : tryListEq (c :: u) ≠ none) : c = '[' := by
  unfold tryListEq at h
  by_cases hp : ("[list=".data).isPrefixOf (c :: u) = true
  · have hlit : "[list=".data = '[' :: "list=".data := rfl
    rw [hlit] at hp
    exact isPrefixOf_head hp
  · rw [if_neg hp] at h
    exact absurd rfl h

theorem tryMention_ne_none_head {members : List (Int × List Char)} {c : Char} {u : List Char}
    (h : tryMention members (c :: u) ≠ none) : c = '@' ∧ u.head? = some '"' := by
  unfold tryMention at h
  by_cases hp : (c :: u).head? = some '@' ∧ (c :: u).tail.head? = some '"'
  · obtain ⟨h1, h2⟩ := hp
    simp only [List.head?_cons, Option.some_inj] at h1
    exact ⟨h1, by simpa using h2⟩
  · rw [if_neg hp] at h
    exact absurd rfl h

theorem mem_replaceCRLF {x : Char} :
    ∀ {t : List Char}, x ∈ replaceCRLF t → x ∈ t ∨ x = '\n' := by
  intro t
  induction t using replaceCRLF.induct with
  | case1 =>
    intro h
    simp [replaceCRLF] at h
  | case2 rest ih =>
    intro h
    rw [replaceCRLF] at h
    rcases List.mem_cons.mp h with heq | h
    · exact Or.inr heq
    · rcases ih h with h | h
      · exact Or.inl (by simp [h])
      · exact Or.inr h
  | case3 c rest hne ih =>
    intro h
    rw [replaceCRLF] at h
    · rcases List.mem_cons.mp h with heq | h
      · exact Or.inl (by simp [heq])
      · rcases ih h with h | h
        · exact Or.inl (List.mem_cons_of_mem _ h)
        · exact Or.inr h
    · exact hne

theorem head_replaceCRLF :
    ∀ {t : List Char} {x : Char}, (replaceCRLF t).head? = some x → x = '\n' ∨ t.head? = some x := by
  intro t
  induction t using replaceCRLF.induct with
  | case1 =>
    intro x h
    simp [replaceCRLF] at h
  | case2 rest _ =>
    intro x h
    rw [replaceCRLF] at h
    simp only [List.head?_cons, Option.some_inj] at h
    exact Or.inl h.symm
  | case3 c rest hne _ =>
    intro x h
    rw [replaceCRLF] at h
    · simp only [List.head?_cons, Option.some_inj] at h
      exact Or.inr (by rw [List.head?_cons, h])
    · exact hne

theorem head_brInsert {t : List Char} {x : Char}
    (h : (brInsert t).head? = some x) : x = '<' ∨ t.head? = some x := by
  cases t with
  | nil => simp [brInsert] at h
  | cons c rest =>
    unfold brInsert at h
    rw [List.flatMap_cons] at h
    by_cases hc : c = '\n'
    · rw [if_pos hc] at h
      simp only [List.cons_append, List.head?_cons, Option.some_inj] at h
      exact Or.inl h.symm
    · rw [if_neg hc] at h
      simp only [List.cons_append, List.nil_append, List.head?_cons, Option.some_inj] at h
      exact Or.inr (by rw [List.head?_cons, h])

theorem hasMention_replaceCRLF :
    ∀ {t : List Char}, hasMention t = false → hasMention (replaceCRLF t) = false := by
  intro t
  induction t using replaceCRLF.induct with
  | case1 => intro h; exact h
  | case2 rest ih =>
    intro h
    rw [replaceCRLF, hasMention_cons_ne (by decide)]
    exact ih (hasMention_cons_false (hasMention_cons_false h))
  | case3 c rest hne ih =>
    intro h
    rw [replaceCRLF]
    · rw [hasMention]
      by_cases hc : c = '@' ∧ (replaceCRLF rest).head? = some '"'
      · exfalso
        obtain ⟨hc1, hc2⟩ := hc
        rcases head_replaceCRLF hc2 with habs | hh
        · exact absurd habs (by decide)
        · rw [hasMention, if_pos ⟨hc1, hh⟩] at h
          exact absurd h (by simp)
      · rw [if_neg hc]
        exact ih (hasMention_cons_false h)
    · exact hne

theorem hasMention_replaceCR {t : List Char} (h : hasMention t = false) :
    hasMention (replaceCR t) = false := by
  induction t with
  | nil => exact h
  | cons c rest ih =>
    unfold replaceCR
    rw [List.map_cons, hasMention]
    by_cases hc : (if c = '\r' then '\n' else c) = '@'
        ∧ (List.map (fun c => if c = '\r' then '\n' else c) rest).head? = some '"'
    · exfalso
      obtain ⟨hc1, hc2⟩ := hc
      have hc1' : c = '@' := by
        by_cases hr : c = '\r'
        · rw [if_pos hr] at hc1
          exact absurd hc1 (by decide)
        · rwa [if_neg hr] at hc1
      rw [List.head?_map] at hc2
      cases hrest : rest.head? with
      | none => rw [hrest] at hc2; simp at hc2
      | some y =>
        rw [hrest] at hc2
        have hc2' : (if y = '\r' then '\n' else y) = '"' := by simpa using hc2
        have hy : y = '"' := by
          by_cases hr : y = '\r'
          · rw [if_pos hr] at hc2'
            exact absurd hc2' (by decide)
          · rwa [if_neg hr] at hc2'
        rw [hasMention, if_pos ⟨hc1', by rw [hrest, hy]⟩] at h
        exact absurd h (by simp)
    · rw [if_neg hc]
      exact ih (hasMention_cons_false h)

theorem hasMention_brInsert {t : List Char} (h : hasMention t = false) :
    hasMention (brInsert t) = false := by
  induction t with
  | nil => exact h
  | cons c rest ih =>
    unfold brInsert
    rw [List.flatMap_cons]
    by_cases hc : c = '\n'
    · rw [if_pos hc]
      show hasMention ('<' :: 'b' :: 'r' :: '>' :: '\n' :: rest.flatMap _) = false
      rw [hasMention_cons_ne (by decide), hasMention_cons_ne (by decide),
        hasMention_cons_ne (by decide), hasMention_cons_ne (by decide),
        hasMention_cons_ne (by decide)]
      exact ih (hasMention_cons_false h)
    · rw [if_neg hc]
      show hasMention (c :: rest.flatMap _) = false
      rw [hasMention]
      by_cases hcond : c = '@'
          ∧ (rest.flatMap (fun c => if c = '\n' then "<br>\n".data else [c])).head? = some '"'
      · exfalso
        obtain ⟨hc1, hc2⟩ := hcond
        rcases head_brInsert hc2 with habs | hh
        · exact absurd habs (by decide)
        · rw [hasMention, if_pos ⟨hc1, hh⟩] at h
          exact absurd h (by simp)
      · rw [if_neg hcond]
        exact ih (hasMention_cons_false h)

theorem not_mem_replaceCRLF {x : Char} {t : List Char} (hx : x ∉ t) (hxn : x ≠ '\n') :
    x ∉ replaceCRLF t := by
  intro hmem
  rcases mem_replaceCRLF hmem with h | h
  · exact hx h
  · exact hxn h

theorem not_mem_replaceCR {x : Char} {t : List Char} (hx : x ∉ t) (hxn : x ≠ '\n') :
    x ∉ replaceCR t := by
  intro hmem
  unfold replaceCR at hmem
  rw [List.mem_map] at hmem
  obtain ⟨y, hy, hfy⟩ := hmem
  by_cases hr : y = '\r'
  · rw [if_pos hr] at hfy
    exact hxn hfy.symm
  · rw [if_neg hr] at hfy
    exact hx (hfy ▸ hy)

theorem not_mem_brInsert {x : Char} {t : List Char} (hx : x ∉ t)
    (hxb : x ∉ "<br>\n".data) : x ∉ brInsert t := by
  intro hmem
  unfold brInsert at hmem
  rw [List.mem_flatMap] at hmem
  obtain ⟨y, hy, hfy⟩ := hmem
  by_cases hn : y = '\n'
  · rw [if_pos hn] at hfy
    exact hxb hfy
  · rw [if_neg hn] at hfy
    rw [List.mem_singleton] at hfy
    exact hx (hfy ▸ hy)

/-- On a text with no `[` and no `@"`, every cascade stage is the
identity: `convert_plush_bbcode` is exactly the line-break normalisation. -/
theorem convert_no_markup (discussions : List (PyKey × Discussion))
    (members : List (Int × List Char)) (cur : Option Int) {text : List Char}
    (hb : '[' ∉ text) (hm : hasMention text = false) :
    convert_plush_bbcode discussions members text cur
      = brInsert (replaceCR (replaceCRLF text)) := by
  unfold convert_plush_bbcode
  by_cases he : text = []
  · subst he
    rfl
  · rw [if_neg he]
    have hb1 : '[' ∉ brInsert (replaceCR (replaceCRLF text)) :=
      not_mem_brInsert (not_mem_replaceCR (not_mem_replaceCRLF hb (by decide)) (by decide))
        (by decide)
    have hm1 : hasMention (brInsert (replaceCR (replaceCRLF text))) = false :=
      hasMention_brInsert (hasMention_replaceCR (hasMention_replaceCRLF hm))
    simp only [reSub_id_of_head (fun c u h => tryReply_ne_none_head h) hb1,
      reSub_id_of_head (fun c u h => tryComplexQuote_ne_none_head h) hb1,
      reSub_id_of_head (fun c u h => tryNamedQuote_ne_none_head h) hb1,
      reSub_id_mention (fun c u h => tryMention_ne_none_head h) hm1,
      reSub_id_of_head (fun c u h => tryUrlEq_ne_none_head h) hb1,
      reSub_id_of_head (fun c u h => tryListEq_ne_none_head h) hb1,
      reSub_id_of_head (fun c u h => tryPair_ne_none_head h) hb1]

/-! ### User-data chunking (`generate_user_data_chunks`) -/

/-- The slicing loop `for chunk_num, i in enumerate(range(0, len(all_users), 50)):
chunk = all_users[i:i+50]`.  Every step consumes at least one element, so
`fuel = l.length` always suffices; the fuel only makes the recursion
structural. -/
def chunksOf50Aux : Nat → List α → List (List α)
  | _, [] => []
  | 0, _ :: _ => []
  | fuel + 1, a :: l => (a :: l).take 50 :: chunksOf50Aux fuel (l.drop 49)

/-- The list of 50-element slices of `all_users`. -/
def chunksOf50 (l : List α) : List (List α) := chunksOf50Aux l.length l

/-- `get_username` of `convert_forum.py`: fall back to `User {id}`. -/
def get_username (members : List (Int × List Char)) (user_id : Int) : List Char :=
  match List.lookup user_id members with
  | some name => name
  | none => "User ".data ++ intToStr user_id

/-- The per-user bundle written into a chunk file. -/
structure ChunkUserData (D C : Type) where
  username : List Char
  discussions : List D
  comments : List C

/-- One chunk file's data: every member id of the slice mapped to its
bundle (`user_discussions.get(user_id, [])`, likewise for comments). -/
def chunkData (members : List (Int × List Char)) (user_discussions : List (Int × List D))
    (user_comments : List (Int × List C)) (chunk_user_ids : List Int) :
    List (Int × ChunkUserData D C) :=
  chunk_user_ids.map (fun uid =>
    (uid, ⟨get_username members uid,
      (List.lookup uid user_discussions).getD [],
      (List.lookup uid user_comments).getD []⟩))

/-- The chunk-assignment loop `user_chunks[user_id] = chunk_num`, chunk
numbers counting up from `i`. -/
def assignFrom (i : Nat) : List (List Int) → List (Int × Nat)
  | [] => []
  | chunk :: rest => chunk.map (fun uid => (uid, i)) ++ assignFrom (i + 1) rest

/-- `generate_user_data_chunks` of `convert_forum.py`: the chunk files'
data and the chunk-assignment map.  `user_discussions`/`user_comments`
are the per-user maps pre-organised earlier in the function. -/
def generate_user_data_chunks (members : List (Int × List Char))
    (user_discussions : List (Int × List D)) (user_comments : List (Int × List C)) :
    List (List (Int × ChunkUserData D C)) × List (Int × Nat) :=
  let all_users := members.map Prod.fst
  let chunks := chunksOf50 all_users
  (chunks.map (chunkData members user_discussions user_comments), assignFrom 0 chunks)

theorem chunksOf50Aux_flatten :
    ∀ (fuel : Nat) (l : List α), l.length ≤ fuel → (chunksOf50Aux fuel l).flatten = l := by
  intro fuel l
  induction fuel, l using chunksOf50Aux.induct with
  | case1 t =>
    intro _
    rw [chunksOf50Aux]
    rfl
  | case2 a l => intro hlen; simp at hlen
  | case3 fuel a l ih =>
    intro hlen
    have hlen2 : (l.drop 49).length ≤ fuel := by
      simp only [List.length_cons] at hlen
      rw [List.length_drop]
      omega
    rw [chunksOf50Aux, List.flatten_cons, ih hlen2]
    show a :: (l.take 49 ++ l.drop 49) = a :: l
    rw [List.take_append_drop]

theorem chunksOf50_flatten (l : List α) : (chunksOf50 l).flatten = l :=
  chunksOf50Aux_flatten l.length l le_rfl

theorem chunksOf50Aux_length :
    ∀ (fuel : Nat) (l : List α), l.length ≤ fuel →
      (chunksOf50Aux fuel l).length = (l.length + 49) / 50 := by
  intro fuel l
  induction fuel, l using chunksOf50Aux.induct with
  | case1 t =>
    intro _
    rw [chunksOf50Aux]
    simp
  | case2 a l => intro hlen; simp at hlen
  | case3 fuel a l ih =>
    intro hlen
    have hlen2 : (l.drop 49).length ≤ fuel := by
      simp only [List.length_cons] at hlen
      rw [List.length_drop]
      omega
    rw [chunksOf50Aux, List.length_cons, ih hlen2, List.length_drop, List.length_cons]
    omega

theorem chunksOf50_length (l : List α) : (chunksOf50 l).length = (l.length + 49) / 50 :=
  chunksOf50Aux_length l.length l le_rfl

theorem lookup_mapped_mem {uid : Int} {i : Nat} :
    ∀ {chunk : List Int}, uid ∈ chunk →
      List.lookup uid (chunk.map (fun u => (u, i))) = some i := by
  intro chunk
  induction chunk with
  | nil => intro h; simp at h
  | cons u rest ih =>
    intro h
    by_cases hu : uid = u
    · subst hu
      simp [List.lookup]
    · have hne : (uid == u) = false := by simpa using hu
      rw [List.map_cons, List.lookup, hne]
      rcases List.mem_cons.mp h with heq | hmem
      · exact absurd heq hu
      · exact ih hmem

theorem lookup_mapped_not_mem {uid : Int} {i : Nat} :
    ∀ {chunk : List Int}, uid ∉ chunk →
      List.lookup uid (chunk.map (fun u => (u, i))) = none := by
  intro chunk
  induction chunk with
  | nil => intro _; rfl
  | cons u rest ih =>
    intro h
    by_cases hu : uid = u
    · exact absurd (by rw [hu]; exact List.mem_cons_self u rest) h
    · have hne : (uid == u) = false := by simpa using hu
      rw [List.map_cons, List.lookup, hne]
      exact ih (fun hmem => h (List.mem_cons_of_mem _ hmem))

theorem lookup_assignFrom {uid : Int} :
    ∀ (chunks : List (List Int)) (i : Nat), uid ∈ chunks.flatten → chunks.flatten.Nodup →
      ∃ j, List.lookup uid (assignFrom i chunks) = some (i + j)
        ∧ ∃ hj : j < chunks.length, uid ∈ chunks.get ⟨j, hj⟩ := by
  intro chunks
  induction chunks with
  | nil => intro i h _; simp at h
  | cons chunk rest ih =>
    intro i hmem hnd
    rw [List.flatten_cons] at hmem hnd
    obtain ⟨hnd1, hnd2, hdisj⟩ := List.nodup_append.mp hnd
    by_cases hc : uid ∈ chunk
    · refine ⟨0, ?_, Nat.succ_pos _, hc⟩
      rw [assignFrom, List.lookup_append, lookup_mapped_mem hc]
      rfl
    · have hrest : uid ∈ rest.flatten := by
        rcases List.mem_append.mp hmem with h | h
        · exact absurd h hc
        · exact h
      obtain ⟨j, hj1, hj2, hj3⟩ := ih (i + 1) hrest hnd2
      refine ⟨j + 1, ?_, by simpa using Nat.succ_lt_succ hj2, by simpa using hj3⟩
      rw [assignFrom, List.lookup_append, lookup_mapped_not_mem hc, Option.none_or, hj1]
      congr 1
      omega

theorem countP_not_mem_flatten {uid : Int} :
    ∀ {chunks : List (List Int)}, uid ∉ chunks.flatten →
      chunks.countP (fun c => decide (uid ∈ c)) = 0 := by
  intro chunks
  induction chunks with
  | nil => intro _; rfl
  | cons chunk rest ih =>
    intro h
    rw [List.flatten_cons] at h
    rw [List.countP_cons, if_neg (by simp; intro hmem; exact h (List.mem_append_left _ hmem))]
    rw [ih (fun hmem => h (List.mem_append_right _ hmem))]

theorem countP_chunks_eq_one {uid : Int} :
    ∀ (chunks : List (List Int)), uid ∈ chunks.flatten → chunks.flatten.Nodup →
      chunks.countP (fun c => decide (uid ∈ c)) = 1 := by
  intro chunks
  induction chunks with
  | nil => intro h _; simp at h
  | cons chunk rest ih =>
    intro hmem hnd
    rw [List.flatten_cons] at hmem hnd
    obtain ⟨hnd1, hnd2, hdisj⟩ := List.nodup_append.mp hnd
    rw [List.countP_cons]
    by_cases hc : uid ∈ chunk
    · rw [if_pos (by simpa using hc), countP_not_mem_flatten (hdisj hc)]
    · have hrest : uid ∈ rest.flatten := by
        rcases List.mem_append.mp hmem with h | h
        · exact absurd h hc
        · exact h
      rw [if_neg (by simpa using hc), ih hrest hnd2]

theorem chunkData_map_fst (members : List (Int × List Char))
    (user_discussions : List (Int × List D)) (user_comments : List (Int × List C))
    (ids : List Int) :
    (chunkData members user_discussions user_comments ids).map Prod.fst = ids := by
  induction ids with
  | nil => rfl
  | cons x rest ih =>
    show x :: (chunkData members user_discussions user_comments rest).map Prod.fst = x :: rest
    rw [ih]

/-! ### The incremental cache (`_save_processed_data` / `_load_processed_data`) -/

/-- The four normalized entity maps, keyed by their integer natural ids. -/
structure EntityStore (DV CV MV KV : Type) where
  discussions : List (Int × DV)
  comments : List (Int × CV)
  members : List (Int × MV)
  categories : List (Int × KV)
deriving DecidableEq

/-- The serialized cache: `json.dump` writes each integer key as its
decimal string; JSON-representable values round-trip unchanged. -/
structure ProcessedData (DV CV MV KV : Type) where
  discussions : List (List Char × DV)
  comments : List (List Char × CV)
  members : List (List Char × MV)
  categories : List (List Char × KV)

/-- Key serialization performed by `json.dump` on an int-keyed dict. -/
def saveMapInt {V : Type} (m : List (Int × V)) : List (List Char × V) :=
  m.map (fun p => (intToStr p.1, p.2))

/-- The loading comprehension `{int(k): v for k, v in data.items()}`; a
key rejected by `int` raises, failing the whole load (caught by the
surrounding `try`). -/
def loadMapInt {V : Type} : List (List Char × V) → Option (List (Int × V))
  | [] => some []
  | (k, v) :: rest =>
    match pyInt k with
    | some n => (loadMapInt rest).map (fun l => (n, v) :: l)
    | none => none

/-- `_save_processed_data` of `convert_forum.py` (the four json files). -/
def _save_processed_data (s : EntityStore DV CV MV KV) : ProcessedData DV CV MV KV :=
  ⟨saveMapInt s.discussions, saveMapInt s.comments,
    saveMapInt s.members, saveMapInt s.categories⟩

/-- `_load_processed_data` of `convert_forum.py`: all four maps load with
keys converted back to integers, or the load fails as a whole. -/
def _load_processed_data (p : ProcessedData DV CV MV KV) : Option (EntityStore DV CV MV KV) := do
  let d ← loadMapInt p.discussions
  let c ← loadMapInt p.comments
  let m ← loadMapInt p.members
  let k ← loadMapInt p.categories
  pure ⟨d, c, m, k⟩

theorem loadMapInt_saveMapInt {V : Type} (m : List (Int × V)) :
    loadMapInt (saveMapInt m) = some m := by
  induction m with
  | nil => rfl
  | cons p rest ih =>
    show loadMapInt ((intToStr p.1, p.2) :: saveMapInt rest) = some (p :: rest)
    rw [loadMapInt, pyInt_intToStr, ih]
    rfl

/-! ### Comment and message ordering

`list.sort(key=lambda x: x['DateInserted'])` is Python's stable ascending
sort keyed by the timestamp string.  All stable sorts by the same key
agree element-for-element, so it is modelled by insertion sort. -/

/-- Python string comparison `a < b`: lexicographic on code points. -/
def pyStrLt : List Char → List Char → Bool
  | [], [] => false
  | [], _ :: _ => true
  | _ :: _, [] => false
  | a :: as, b :: bs => if a < b then true else if b < a then false else pyStrLt as bs

/-- Python `a <= b` on strings. -/
def pyStrLe (a b : List Char) : Bool := !(pyStrLt b a)

theorem pyStrLt_irrefl : ∀ (a : List Char), pyStrLt a a = false := by
  intro a
  induction a with
  | nil => rfl
  | cons c rest ih =>
    rw [pyStrLt, if_neg (lt_irrefl c), if_neg (lt_irrefl c)]
    exact ih

theorem pyStrLe_refl (a : List Char) : pyStrLe a a = true := by
  rw [pyStrLe, pyStrLt_irrefl]
  rfl

theorem pyStrLt_connex :
    ∀ (a b : List Char), pyStrLt a b = false → pyStrLt b a = false → a = b := by
  intro a
  induction a with
  | nil =>
    intro b h1 _
    cases b with
    | nil => rfl
    | cons x xs => exact absurd h1 (by rw [pyStrLt]; simp)
  | cons c rest ih =>
    intro b h1 h2
    cases b with
    | nil => exact absurd h2 (by rw [pyStrLt]; simp)
    | cons x xs =>
      rw [pyStrLt] at h1 h2
      by_cases hlt : c < x
      · rw [if_pos hlt] at h1
        exact absurd h1 (by simp)
      · by_cases hgt : x < c
        · rw [if_pos hgt] at h2
          exact absurd h2 (by simp)
        · rw [if_neg hlt, if_neg hgt] at h1
          rw [if_neg hgt, if_neg hlt] at h2
          have hcx : c = x := le_antisymm (le_of_not_lt hgt) (le_of_not_lt hlt)
          rw [hcx, ih xs h1 h2]

theorem pyStrLt_trans :
    ∀ (a b c : List Char), pyStrLt a b = true → pyStrLt b c = true → pyStrLt a c = true := by
  intro a
  induction a with
  | nil =>
    intro b c h1 h2
    cases b with
    | nil => exact absurd h1 (by rw [pyStrLt]; simp)
    | cons y ys =>
      cases c with
      | nil => exact absurd h2 (by rw [pyStrLt]; simp)
      | cons z zs => rw [pyStrLt]
  | cons x xs ih =>
    intro b c h1 h2
    cases b with
    | nil => exact absurd h1 (by rw [pyStrLt]; simp)
    | cons y ys =>
      cases c with
      | nil => exact absurd h2 (by rw [pyStrLt]; simp)
      | cons z zs =>
        rw [pyStrLt] at h1 h2 ⊢
        have h1' : x < y ∨ (x = y ∧ pyStrLt xs ys = true) := by
          by_cases hxy : x < y
          · exact Or.inl hxy
          · by_cases hyx : y < x
            · rw [if_neg hxy, if_pos hyx] at h1
              exact absurd h1 (by simp)
            · rw [if_neg hxy, if_neg hyx] at h1
              exact Or.inr ⟨le_antisymm (le_of_not_lt hyx) (le_of_not_lt hxy), h1⟩
        have h2' : y < z ∨ (y = z ∧ pyStrLt ys zs = true) := by
          by_cases hyz : y < z
          · exact Or.inl hyz
          · by_cases hzy : z < y
            · rw [if_neg hyz, if_pos hzy] at h2
              exact absurd h2 (by simp)
            · rw [if_neg hyz, if_neg hzy] at h2
              exact Or.inr ⟨le_antisymm (le_of_not_lt hzy) (le_of_not_lt hyz), h2⟩
        rcases h1' with hxy | ⟨hxyeq, hrec1⟩
        · rcases h2' with hyz | ⟨hyzeq, _⟩
          · rw [if_pos (lt_trans hxy hyz)]
          · rw [if_pos (hyzeq ▸ hxy)]
        · rcases h2' with hyz | ⟨hyzeq, hrec2⟩
          · rw [if_pos (hxyeq.symm ▸ hyz)]
          · have hxz : x = z := hxyeq.trans hyzeq
            rw [if_neg (by rw [hxz]; exact lt_irrefl z),
              if_neg (by rw [hxz]; exact lt_irrefl z)]
            exact ih ys zs hrec1 hrec2

theorem pyStrLe_total (a b : List Char) : pyStrLe a b = true ∨ pyStrLe b a = true := by
  by_cases h : pyStrLt b a = true
  · right
    rw [pyStrLe]
    by_cases h2 : pyStrLt a b = true
    · have := pyStrLt_trans a b a h2 h
      rw [pyStrLt_irrefl] at this
      exact absurd this (by simp)
    · rw [Bool.not_eq_true] at h2
      rw [h2]
      rfl
  · left
    rw [pyStrLe, Bool.not_eq_true] at *
    rw [h]
    rfl

theorem pyStrLe_trans {a b c : List Char}
    (h1 : pyStrLe a b = true) (h2 : pyStrLe b c = true) : pyStrLe a c = true := by
  rw [pyStrLe] at h1 h2 ⊢
  simp only [Bool.not_eq_true'] at h1 h2 ⊢
  by_contra hca
  rw [Bool.not_eq_false] at hca
  have hab : pyStrLt a b = true ∨ a = b := by
    by_cases h : pyStrLt a b = true
    · exact Or.inl h
    · rw [Bool.not_eq_true] at h
      exact Or.inr (pyStrLt_connex a b h h1)
  rcases hab with hab | rfl
  · have := pyStrLt_trans c a b hca hab
    rw [this] at h2
    exact absurd h2 (by simp)
  · rw [hca] at h2
    exact absurd h2 (by simp)

/-- A comment record: the fields `_load_comments` stores and the sort key. -/
structure PComment where
  CommentID : Int
  DiscussionID : Int
  InsertUserID : Int
  Body : List Char
  DateInserted : List Char
deriving DecidableEq

/-- A private-message record of `convert_dms.py`. -/
structure PMessage where
  ConversationID : Int
  InsertUserID : Int
  Body : List Char
  DateInserted : List Char
deriving DecidableEq

/-- The comparison induced by `sort(key=lambda x: x['DateInserted'])`. -/
def commentLe (a b : PComment) : Prop := pyStrLe a.DateInserted b.DateInserted = true

instance : DecidableRel commentLe :=
  fun a b => inferInstanceAs (Decidable (pyStrLe a.DateInserted b.DateInserted = true))

instance : IsTotal PComment commentLe := ⟨fun _ _ => pyStrLe_total _ _⟩

instance : IsTrans PComment commentLe := ⟨fun _ _ _ h1 h2 => pyStrLe_trans h1 h2⟩

/-- The same comparison for messages. -/
def messageLe (a b : PMessage) : Prop := pyStrLe a.DateInserted b.DateInserted = true

instance : DecidableRel messageLe :=
  fun a b => inferInstanceAs (Decidable (pyStrLe a.DateInserted b.DateInserted = true))

instance : IsTotal PMessage messageLe := ⟨fun _ _ => pyStrLe_total _ _⟩

instance : IsTrans PMessage messageLe := ⟨fun _ _ _ h1 h2 => pyStrLe_trans h1 h2⟩

/-- The sorting pass ending `_load_comments`: each discussion's comments
are stable-sorted ascending by `DateInserted`. -/
def _load_comments_sort (comments : List (Int × List PComment)) : List (Int × List PComment) :=
  comments.map (fun p => (p.1, List.insertionSort commentLe p.2))

/-- The sorting pass ending `load_message_data` of `convert_dms.py`. -/
def load_message_data_sort (messages : List (Int × List PMessage)) :
    List (Int × List PMessage) :=
  messages.map (fun p => (p.1, List.insertionSort messageLe p.2))

theorem filter_orderedInsert {α : Type} (r : α → α → Prop) [DecidableRel r]
    (key : α → List Char) (d : List Char)
    (hr : ∀ x y, key x = key y → r x y) (a : α) (l : List α) :
    (List.orderedInsert r a l).filter (fun x => key x == d)
      = if key a == d then a :: l.filter (fun x => key x == d)
        else l.filter (fun x => key x == d) := by
  rw [List.orderedInsert_eq_take_drop, List.filter_append]
  have hsplit : l.filter (fun x => key x == d)
      = (l.takeWhile (fun b => decide ¬r a b)).filter (fun x => key x == d)
        ++ (l.dropWhile (fun b => decide ¬r a b)).filter (fun x => key x == d) := by
    conv_lhs => rw [← List.takeWhile_append_dropWhile (fun b => decide ¬r a b) l]
    rw [List.filter_append]
  by_cases hd : (key a == d) = true
  · have htw : (l.takeWhile (fun b => decide ¬r a b)).filter (fun x => key x == d) = [] := by
      rw [List.filter_eq_nil_iff]
      intro b hb hbd
      have hnr : ¬ r a b := by simpa using List.mem_takeWhile_imp hb
      apply hnr
      apply hr
      have h1 : key a = d := by simpa using hd
      have h2 : key b = d := by simpa using hbd
      rw [h1, h2]
    rw [if_pos hd, htw, List.nil_append, List.filter_cons, if_pos hd, hsplit, htw,
      List.nil_append]
  · rw [if_neg hd, List.filter_cons, if_neg hd, hsplit]

theorem insertionSort_filter {α : Type} (r : α → α → Prop) [DecidableRel r]
    (key : α → List Char) (d : List Char)
    (hr : ∀ x y, key x = key y → r x y) (l : List α) :
    (List.insertionSort r l).filter (fun x => key x == d)
      = l.filter (fun x => key x == d) := by
  induction l with
  | nil => rfl
  | cons a l ih =>
    show (List.orderedInsert r a (List.insertionSort r l)).filter (fun x => key x == d)
      = (a :: l).filter (fun x => key x == d)
    rw [filter_orderedInsert r key d hr a (List.insertionSort r l), ih]
    by_cases hd : (key a == d) = true
    · rw [if_pos hd, List.filter_cons, if_pos hd]
    · rw [if_neg hd, List.filter_cons, if_neg hd]

/-! ## The claims -/

/-- C1: the spec says a reply/complex-quote tag targeting an existing,
different discussion embeds that discussion's slug.  The code cannot do
this: the target id captured by the regex is a string, while the
discussion store is keyed by integers, so the membership test
`disc_id in self.discussions` never succeeds and the slug branch is dead;
an existing different discussion is always rendered as the no-slug
fallback link `/discussions/<id>`. -/
theorem claim_C1_code_bug :
    _convert_reply_tag [(PyKey.int 7, ⟨"Hello".data⟩)] (some 5) "Alice".data "d7".data
        = "<a href=\"/discussions/7\" class=\"reply-link\">Reply to Alice</a>".data
    ∧ _convert_reply_tag [(PyKey.int 7, ⟨"Hello".data⟩)] (some 5) "Alice".data "d7".data
        ≠ "<a href=\"/discussions/7-hello.html\" class=\"reply-link\">Reply to Alice</a>".data
    ∧ _convert_complex_quote [(PyKey.int 7, ⟨"Hello".data⟩)] (some 5) "Alice".data "d7".data
          "Q".data
        = ("<a href=\"/discussions/7\" class=\"quote-link\">Quoting Alice</a>"
            ++ "<blockquote class=\"user-quote\">Q</blockquote>").data
    ∧ (∀ (entries : List (Int × Discussion)) (s : List Char),
        dictFind (PyKey.str s) (entries.map (fun q => (PyKey.int q.1, q.2))) = none) := by
  refine ⟨by decide, by decide, by decide, ?_⟩
  intro entries s
  unfold dictFind
  rw [List.find?_eq_none.mpr]
  · rfl
  · intro p hp
    rw [List.mem_map] at hp
    obtain ⟨q, _, rfl⟩ := hp
    simp

/-- C2 counterexample: with `owning_document_id = 0` (a falsy Python int)
the same-discussion test `if current_discussion_id and ...` fails even
though the target id `d0` equals the owning id, and the cross-discussion
URL form is produced instead of the `#discussion-top` anchor. -/
theorem claim_C2_counterexample :
    _convert_reply_tag [] (some 0) "Alice".data "d0".data
        = "<a href=\"/discussions/0\" class=\"reply-link\">Reply to Alice</a>".data
    ∧ _convert_reply_tag [] (some 0) "Alice".data "d0".data
        ≠ "<a href=\"#discussion-top\" class=\"reply-link\">Reply to Alice</a>".data :=
  ⟨by decide, by decide⟩

/-- C2 (amended): for every nonzero owning id and every state of the
discussion store, a reply or complex-quote tag whose discussion-qualified
target equals the owning id produces the fixed `#discussion-top` anchor
form, never the cross-discussion URL form. -/
theorem claim_C2_amended (discussions : List (PyKey × Discussion)) (n : Int)
    (username quoted : List Char) (hn : n ≠ 0) :
    _convert_reply_tag discussions (some n) username ('d' :: intToStr n)
      = "<a href=\"#discussion-top\" class=\"reply-link\">Reply to ".data ++ username
          ++ "</a>".data
    ∧ _convert_complex_quote discussions (some n) username ('d' :: intToStr n) quoted
      = "<a href=\"#discussion-top\" class=\"quote-link\">Quoting ".data ++ username
          ++ "</a><blockquote class=\"user-quote\">".data ++ quoted
          ++ "</blockquote>".data := by
  have hcond : pyTruthyOptInt (some n)
      ∧ (('d' :: intToStr n).drop 1) = intToStr ((some n : Option Int).getD 0) := by
    constructor
    · show (n != 0) = true
      simpa using hn
    · rfl
  constructor
  · unfold _convert_reply_tag
    rw [if_pos (show ('d' :: intToStr n).head? = some 'd' from rfl), if_pos hcond]
  · unfold _convert_complex_quote
    rw [if_pos (show ('d' :: intToStr n).head? = some 'd' from rfl), if_pos hcond]

/-- C2 witness: the amended theorem applied at owning id 5. -/
theorem claim_C2_amended_witness :
    (5 : Int) ≠ 0
    ∧ _convert_reply_tag [] (some 5) "Bob".data ('d' :: intToStr 5)
      = "<a href=\"#discussion-top\" class=\"reply-link\">Reply to ".data ++ "Bob".data
          ++ "</a>".data :=
  ⟨by decide, (claim_C2_amended [] 5 "Bob".data "Q".data (by decide)).1⟩

/-- C3: serializing the four integer-keyed entity maps to the cache
(json stringifies the keys) and loading them back (`int(k)` per key)
reproduces the store key-for-key and field-for-field, with every key
restored as the original integer. -/
theorem claim_C3 (DV CV MV KV : Type) (s : EntityStore DV CV MV KV) :
    _load_processed_data (_save_processed_data s) = some s := by
  unfold _save_processed_data _load_processed_data
  rw [loadMapInt_saveMapInt, loadMapInt_saveMapInt, loadMapInt_saveMapInt,
    loadMapInt_saveMapInt]
  rfl

/-- C4: on a raw body containing no forum markup (no `[` character and no
`@"` mention opener), `convert_plush_bbcode` is exactly the line-break
normalisation (CRLF and CR to LF, then LF to `<br>\n`); the empty input
yields the empty string. -/
theorem claim_C4 (discussions : List (PyKey × Discussion)) (members : List (Int × List Char))
    (cur : Option Int) (text : List Char)
    (hb : '[' ∉ text) (hm : hasMention text = false) :
    convert_plush_bbcode discussions members text cur
      = brInsert (replaceCR (replaceCRLF text))
    ∧ convert_plush_bbcode discussions members [] cur = [] :=
  ⟨convert_no_markup discussions members cur hb hm, rfl⟩

/-- C4 witness: a markup-free body with an embedded line break. -/
theorem claim_C4_witness :
    '[' ∉ "hello\nworld".data
    ∧ hasMention "hello\nworld".data = false
    ∧ convert_plush_bbcode [] [] "hello\nworld".data none = "hello<br>\nworld".data :=
  ⟨by decide, by decide,
    ((claim_C4 [] [] none "hello\nworld".data (by decide) (by decide)).1).trans (by decide)⟩

/-- C5: for a member store with pairwise distinct ids, the chunk generator
produces `ceil(N/50)` chunk files, every member id occurs in exactly one
chunk file's data, and the chunk-assignment map sends every member id to
the index of the chunk file containing it. -/
theorem claim_C5 (D C : Type) (members : List (Int × List Char))
    (user_discussions : List (Int × List D)) (user_comments : List (Int × List C))
    (hnd : (members.map Prod.fst).Nodup) :
    (generate_user_data_chunks members user_discussions user_comments).1.length
        = (members.length + 49) / 50
    ∧ (∀ uid ∈ members.map Prod.fst,
        (generate_user_data_chunks members user_discussions user_comments).1.countP
          (fun file => decide (uid ∈ file.map Prod.fst)) = 1)
    ∧ (∀ uid ∈ members.map Prod.fst,
        ∃ j, List.lookup uid (generate_user_data_chunks members user_discussions user_comments).2
            = some j
          ∧ ∃ hj : j < (generate_user_data_chunks members user_discussions user_comments).1.length,
            uid ∈ ((generate_user_data_chunks members user_discussions user_comments).1.get
              ⟨j, hj⟩).map Prod.fst) := by
  have hflat : (chunksOf50 (members.map Prod.fst)).flatten = members.map Prod.fst :=
    chunksOf50_flatten _
  have hndf : (chunksOf50 (members.map Prod.fst)).flatten.Nodup := by
    rw [hflat]
    exact hnd
  refine ⟨?_, ?_, ?_⟩
  · show (List.map _ (chunksOf50 (members.map Prod.fst))).length = _
    rw [List.length_map, chunksOf50_length, List.length_map]
  · intro uid hmem
    have hmemf : uid ∈ (chunksOf50 (members.map Prod.fst)).flatten := by
      rw [hflat]
      exact hmem
    show (List.map _ (chunksOf50 (members.map Prod.fst))).countP _ = 1
    rw [List.countP_map]
    have hcongr : ∀ c ∈ chunksOf50 (members.map Prod.fst),
        (((fun file => decide (uid ∈ file.map Prod.fst)) ∘
            chunkData members user_discussions user_comments) c = true
          ↔ decide (uid ∈ c) = true) := by
      intro c _
      show decide (uid ∈ (chunkData members user_discussions user_comments c).map Prod.fst)
          = true ↔ decide (uid ∈ c) = true
      rw [chunkData_map_fst]
    rw [List.countP_congr hcongr]
    exact countP_chunks_eq_one _ hmemf hndf
  · intro uid hmem
    have hmemf : uid ∈ (chunksOf50 (members.map Prod.fst)).flatten := by
      rw [hflat]
      exact hmem
    obtain ⟨j, hj1, hj2, hj3⟩ :=
      lookup_assignFrom (chunksOf50 (members.map Prod.fst)) 0 hmemf hndf
    rw [Nat.zero_add] at hj1
    refine ⟨j, hj1, ?_, ?_⟩
    · show j < (List.map (chunkData members user_discussions user_comments)
        (chunksOf50 (members.map Prod.fst))).length
      rw [List.length_map]
      exact hj2
    · show uid ∈ ((List.map (chunkData members user_discussions user_comments)
        (chunksOf50 (members.map Prod.fst))).get ⟨j, _⟩).map Prod.fst
      rw [List.get_map, chunkData_map_fst]
      exact hj3

/-- C5 witness: two members fit in one chunk (`ceil(2/50) = 1`). -/
theorem claim_C5_witness :
    (([((1 : Int), ['a']), (2, ['b'])] : List (Int × List Char)).map Prod.fst).Nodup
    ∧ (generate_user_data_chunks [((1 : Int), ['a']), (2, ['b'])]
        ([] : List (Int × List Unit)) ([] : List (Int × List Unit))).1.length
      = (([((1 : Int), ['a']), (2, ['b'])] : List (Int × List Char)).length + 49) / 50 :=
  ⟨by decide,
    (claim_C5 Unit Unit [((1 : Int), ['a']), (2, ['b'])] [] [] (by decide)).1⟩

theorem map_eq_self_of_forall {f : Char → Char} :
    ∀ (l : List Char), (∀ c ∈ l, f c = c) → l.map f = l := by
  intro l
  induction l with
  | nil => intro _; rfl
  | cons c rest ih =>
    intro h
    rw [List.map_cons, h c (List.mem_cons_self _ _),
      ih (fun x hx => h x (List.mem_cons_of_mem _ hx))]

/-- C6: `generate_slug` produces a slug of at most 50 characters whose
characters are word characters or hyphens, containing no whitespace and no
two adjacent whitespace/hyphen-class characters, already lowercase (a
further lowercasing changes nothing), and equal titles give equal slugs. -/
theorem claim_C6 (title : List Char) :
    (generate_slug title).length ≤ 50
    ∧ (∀ c ∈ generate_slug title, isWordChar c = true ∨ c = '-')
    ∧ (∀ c ∈ generate_slug title, isSpaceChar c = false)
    ∧ List.Chain' (fun a b => ¬(isSpaceHyphen a = true ∧ isSpaceHyphen b = true))
        (generate_slug title)
    ∧ (generate_slug title).map pyToLower = generate_slug title
    ∧ (∀ t2, title = t2 → generate_slug title = generate_slug t2) := by
  have hmem : ∀ c ∈ generate_slug title,
      c = '-' ∨ (c ∈ (title.map pyToLower).filter keepSlugChar ∧ isSpaceHyphen c = false) := by
    intro c hc
    exact collapseRuns_mem _ c (List.mem_of_mem_take hc)
  refine ⟨?_, ?_, ?_, ?_, ?_, ?_⟩
  · show ((collapseRuns ((title.map pyToLower).filter keepSlugChar)).take 50).length ≤ 50
    rw [List.length_take]
    exact min_le_left _ _
  · intro c hc
    rcases hmem c hc with h | ⟨hf, hsh⟩
    · exact Or.inr h
    · left
      have hkeep : keepSlugChar c = true := (List.mem_filter.mp hf).2
      rw [keepSlugChar] at hkeep
      rw [isSpaceHyphen] at hsh
      rcases Bool.or_eq_true_iff.mp hkeep with h1 | h2
      · rcases Bool.or_eq_true_iff.mp h1 with h3 | h4
        · exact h3
        · exfalso
          rw [Bool.or_eq_false_iff] at hsh
          rw [hsh.1] at h4
          exact Bool.false_ne_true h4
      · exfalso
        rw [Bool.or_eq_false_iff] at hsh
        rw [hsh.2] at h2
        exact Bool.false_ne_true h2
  · intro c hc
    rcases hmem c hc with h | ⟨_, hsh⟩
    · rw [h]
      decide
    · rw [isSpaceHyphen, Bool.or_eq_false_iff] at hsh
      exact hsh.1
  · exact (collapseRuns_chain ((title.map pyToLower).filter keepSlugChar)).take 50
  · apply map_eq_self_of_forall
    intro c hc
    rcases hmem c hc with h | ⟨hf, _⟩
    · rw [h]
      decide
    · obtain ⟨orig, _, horig⟩ := List.mem_map.mp (List.mem_filter.mp hf).1
      rw [← horig, pyToLower_idem]
  · intro t2 h
    rw [h]

/-- C6 witness: the slug of `"Hello, World!"`. -/
theorem claim_C6_witness :
    (generate_slug "Hello, World!".data).length ≤ 50
    ∧ generate_slug "Hello, World!".data = "hello-world".data
    ∧ generate_slug "Hello, World!".data = generate_slug "Hello, World!".data :=
  ⟨(claim_C6 "Hello, World!".data).1, by decide,
    (claim_C6 "Hello, World!".data).2.2.2.2.2 "Hello, World!".data rfl⟩

/-- C7: an ordered-list block with style token `a` produces an `ol`
element typed `a` (lower-alphabetic numbering); an unrecognized style
token produces the plain `ol` element with no type attribute; and the
`li` fragments come only from items that are nonempty after `<br>` removal
and whitespace trimming. -/
theorem claim_C7 (style content : List Char) :
    _convert_ordered_list "a".data content
      = "<ol type=\"a\">".data ++ liTags content ++ "</ol>".data
    ∧ (style ∉ recognizedListTypes →
        _convert_ordered_list style content = "<ol>".data ++ liTags content ++ "</ol>".data)
    ∧ liTags content
      = ((((splitOnStar content).map cleanListItem).filter (fun item => !item.isEmpty)).map
          (fun item => "<li>".data ++ item ++ "</li>".data)).flatten := by
  refine ⟨?_, ?_, ?_⟩
  · unfold _convert_ordered_list
    rw [if_pos (by decide)]
    rfl
  · intro h
    unfold _convert_ordered_list
    rw [if_neg h]
  · unfold liTags
    rw [buildCleanedItems_eq_filter]

/-- C7 witness: style `b` is unrecognized and a whitespace-only item is
dropped. -/
theorem claim_C7_witness :
    "b".data ∉ recognizedListTypes
    ∧ _convert_ordered_list "b".data "[*]x[*] ".data
      = "<ol>".data ++ liTags "[*]x[*] ".data ++ "</ol>".data
    ∧ liTags "[*]x[*] ".data = "<li>x</li>".data :=
  ⟨by decide, (claim_C7 "b".data "[*]x[*] ".data).2.1 (by decide), by decide⟩

/-- C8 counterexample: the store contains a member with id `0` and display
name `Alice`, yet the mention of `Alice` renders as the unknown-mention
span, because the found id feeds the Python truthiness test `if user_id:`
and `0` is falsy. -/
theorem claim_C8_counterexample :
    _convert_user_mention [(0, "Alice".data)] "Alice".data
        = "<span class=\"user-mention unknown\">@Alice</span>".data
    ∧ _convert_user_mention [(0, "Alice".data)] "Alice".data
        ≠ "<a href=\"/members/0.html\" class=\"user-mention\">@Alice</a>".data
    ∧ (∃ p ∈ [((0 : Int), "Alice".data)], p.2 = "Alice".data) :=
  ⟨by decide, by decide, by decide⟩

/-- C8 (amended): if the first member (in store order) whose display name
equals the mentioned username has a nonzero id, the mention renders as a
link to that member's page; if no member's display name equals the
username (exactly, case-sensitively), it renders as the unknown-mention
span; and `findUserId` finds nothing exactly when no display name
matches. -/
theorem claim_C8_amended (members : List (Int × List Char)) (username : List Char) :
    (∀ uid : Int, findUserId members username = some uid → uid ≠ 0 →
      _convert_user_mention members username
        = "<a href=\"/members/".data ++ intToStr uid
            ++ ".html\" class=\"user-mention\">@".data ++ username ++ "</a>".data)
    ∧ (findUserId members username = none →
      _convert_user_mention members username
        = "<span class=\"user-mention unknown\">@".data ++ username ++ "</span>".data)
    ∧ (findUserId members username = none ↔ ∀ p ∈ members, p.2 ≠ username) := by
  refine ⟨?_, ?_, ?_⟩
  · intro uid hfind hne
    unfold _convert_user_mention
    rw [hfind, if_pos (show pyTruthyOptInt (some uid) = true by simp [pyTruthyOptInt, hne])]
    rfl
  · intro hfind
    unfold _convert_user_mention
    rw [hfind, if_neg (by decide)]
  · induction members with
    | nil =>
      constructor
      · intro _ p hp
        simp at hp
      · intro _
        rfl
    | cons m rest ih =>
      obtain ⟨uid, name⟩ := m
      rw [findUserId]
      by_cases hname : name = username
      · rw [if_pos hname]
        constructor
        · intro h
          exact absurd h (by simp)
        · intro h
          exact absurd hname (h (uid, name) (List.mem_cons_self _ _))
      · rw [if_neg hname]
        constructor
        · intro h p hp
          rcases List.mem_cons.mp hp with heq | hp
          · rw [heq]
            exact hname
          · exact (ih.mp h) p hp
        · intro h
          exact ih.mpr (fun p hp => h p (List.mem_cons_of_mem _ hp))

/-- C8 witness: the amended theorem applied to a store whose only member
`Bob` has the nonzero id 7. -/
theorem claim_C8_amended_witness :
    findUserId [((7 : Int), "Bob".data)] "Bob".data = some 7
    ∧ (7 : Int) ≠ 0
    ∧ _convert_user_mention [((7 : Int), "Bob".data)] "Bob".data
      = "<a href=\"/members/".data ++ intToStr 7
          ++ ".html\" class=\"user-mention\">@".data ++ "Bob".data ++ "</a>".data :=
  ⟨by decide, by decide,
    (claim_C8_amended [((7 : Int), "Bob".data)] "Bob".data).1 7 (by decide) (by decide)⟩

/-- C9: after the sorting pass of `_load_comments` (forum converter) and
of `load_message_data` (DM converter), each owner's comments/messages are
in ascending `DateInserted` order, and entries with equal timestamps keep
their relative input order (stable tie-breaking, expressed as equality of
the per-timestamp filtered sublists). -/
theorem claim_C9 (comments : List (Int × List PComment))
    (messages : List (Int × List PMessage)) :
    (∀ p ∈ _load_comments_sort comments,
      List.Pairwise commentLe p.2
      ∧ ∃ q ∈ comments, q.1 = p.1
          ∧ ∀ d : List Char, p.2.filter (fun c => c.DateInserted == d)
              = q.2.filter (fun c => c.DateInserted == d))
    ∧ (∀ p ∈ load_message_data_sort messages,
      List.Pairwise messageLe p.2
      ∧ ∃ q ∈ messages, q.1 = p.1
          ∧ ∀ d : List Char, p.2.filter (fun m => m.DateInserted == d)
              = q.2.filter (fun m => m.DateInserted == d)) := by
  constructor
  · intro p hp
    obtain ⟨q, hq, hqp⟩ := List.mem_map.mp hp
    refine ⟨?_, q, hq, ?_, ?_⟩
    · rw [← hqp]
      exact List.sorted_insertionSort commentLe q.2
    · rw [← hqp]
    · intro d
      rw [← hqp]
      exact insertionSort_filter commentLe PComment.DateInserted d
        (fun x y h => show pyStrLe x.DateInserted y.DateInserted = true by
          rw [h]; exact pyStrLe_refl _) q.2
  · intro p hp
    obtain ⟨q, hq, hqp⟩ := List.mem_map.mp hp
    refine ⟨?_, q, hq, ?_, ?_⟩
    · rw [← hqp]
      exact List.sorted_insertionSort messageLe q.2
    · rw [← hqp]
    · intro d
      rw [← hqp]
      exact insertionSort_filter messageLe PMessage.DateInserted d
        (fun x y h => show pyStrLe x.DateInserted y.DateInserted = true by
          rw [h]; exact pyStrLe_refl _) q.2

/-- C9 witness: two comments arriving out of timestamp order are swapped
by the sorting pass, and the theorem applies to the sorted entry. -/
theorem claim_C9_witness :
    (((1 : Int), [(⟨2, 1, 1, [], "a".data⟩ : PComment), ⟨1, 1, 1, [], "b".data⟩])
        ∈ _load_comments_sort
            [((1 : Int), [(⟨1, 1, 1, [], "b".data⟩ : PComment), ⟨2, 1, 1, [], "a".data⟩])])
    ∧ (List.Pairwise commentLe [(⟨2, 1, 1, [], "a".data⟩ : PComment), ⟨1, 1, 1, [], "b".data⟩]
        ∧ ∃ q ∈ [((1 : Int), [(⟨1, 1, 1, [], "b".data⟩ : PComment), ⟨2, 1, 1, [], "a".data⟩])],
            q.1 = (((1 : Int), [(⟨2, 1, 1, [], "a".data⟩ : PComment),
                ⟨1, 1, 1, [], "b".data⟩]) : Int × List PComment).1
            ∧ ∀ d : List Char,
              (([(⟨2, 1, 1, [], "a".data⟩ : PComment),
                  ⟨1, 1, 1, [], "b".data⟩]).filter (fun c => c.DateInserted == d))
                = q.2.filter (fun c => c.DateInserted == d)) :=
  ⟨by decide,
    (claim_C9 [((1 : Int), [(⟨1, 1, 1, [], "b".data⟩ : PComment), ⟨2, 1, 1, [], "a".data⟩])]
      []).1
      ((1 : Int), [(⟨2, 1, 1, [], "a".data⟩ : PComment), ⟨1, 1, 1, [], "b".data⟩])
      (by decide)⟩

/-- C10: the Windows-1252 remap is idempotent in both converters, because
none of the replacement characters of either table lies in the remapped
range U+0080 to U+009F. -/
theorem claim_C10 (t : List Char) :
    forum.fix_windows_1252_encoding (forum.fix_windows_1252_encoding t)
      = forum.fix_windows_1252_encoding t
    ∧ dm.fix_windows_1252_encoding (dm.fix_windows_1252_encoding t)
      = dm.fix_windows_1252_encoding t
    ∧ (∀ p ∈ forum.windows_1252_mapping, ∀ c ∈ p.2, ¬(128 ≤ c.toNat ∧ c.toNat ≤ 159))
    ∧ (∀ p ∈ dm.windows_1252_mapping, ∀ c ∈ p.2, ¬(128 ≤ c.toNat ∧ c.toNat ≤ 159)) :=
  ⟨forum_fix_idem t, dm_fix_idem t, by decide, by decide⟩

/-- C10 witness: the theorem applied to the one-character text U+0080. -/
theorem claim_C10_witness :
    forum.fix_windows_1252_encoding (forum.fix_windows_1252_encoding ['\u0080'])
      = forum.fix_windows_1252_encoding ['\u0080'] :=
  (claim_C10 ['\u0080']).1

end TPF
